import Mathlib

/-!
Shallow embedding of the `obj2dl` OBJ-to-display-list converter
(`tools/obj2dl/obj2dl.py` plus the packing helpers of
`tools/obj2dl/mtl_parser.py`) and proofs of its specified properties.

Modelling conventions:
* Python floats are modelled as exact rationals (`ℚ`); every claim checked
  here only involves values on which binary floating point is exact.
* Python `list` indexing with an `int` is modelled by `pyGet`, including
  Python's negative-index wrap-around; `None` results model `IndexError`.
* Fallible code returns `Option` (`none` models a raised exception).
* The external `DisplayList` writer (module `display_list`, not part of the
  translated sources; the spec treats it as an opaque collaborator) is
  modelled as the list of commands issued to it.
* File-system reads (the `.mtl` library, texture-image probing) are passed
  in as data: `materials` is the parsed material table and `probe` maps a
  texture file name to its pixel dimensions (`none` = file not found).
-/

namespace Obj2DL

set_option linter.unusedSectionVars false
set_option linter.unreachableTactic false
set_option linter.unusedTactic false

/-! ## Python string helpers (str.split, int(), float()) -/

/-- Split a character list on a separator character.
Mirrors Python `str.split(sep)` for a one-character separator:
`''.split('/') == ['']`, `'a/'.split('/') == ['a','']`. -/
def splitOnChar (c : Char) : List Char → List (List Char)
  | [] => [[]]
  | x :: xs =>
    let r := splitOnChar c xs
    if x = c then [] :: r
    else
      match r with
      | h :: t => (x :: h) :: t
      | [] => [[x]]

/-- Whitespace split accumulator: mirrors Python `str.split()` (no
argument), which drops empty fields. `acc` holds the current word
reversed. -/
def wsSplitAux : List Char → List Char → List (List Char)
  | [], acc => if acc = [] then [] else [acc.reverse]
  | x :: xs, acc =>
    if x.isWhitespace then
      if acc = [] then wsSplitAux xs [] else acc.reverse :: wsSplitAux xs []
    else wsSplitAux xs (x :: acc)

/-- Python `line.split()`: tokens separated by runs of whitespace. -/
def pySplit (s : String) : List String :=
  (wsSplitAux s.toList []).map (fun cs => String.mk cs)

/-- Python `line.split('#')[0]`: the part of the line before the first
comment marker. -/
def stripComment (s : String) : String :=
  String.mk (s.toList.takeWhile (fun c => ¬ c = '#'))

/-- Value of a list of decimal digits. -/
def digitsVal (cs : List Char) : Nat :=
  cs.foldl (fun a c => a * 10 + (c.toNat - 48)) 0

/-- Python `int(s)` on plain decimal literals with an optional sign
(`none` models `ValueError`). -/
def pyIntChars : List Char → Option Int
  | '-' :: ds =>
    if ds ≠ [] ∧ ds.all Char.isDigit then some (-(digitsVal ds : Int)) else none
  | '+' :: ds =>
    if ds ≠ [] ∧ ds.all Char.isDigit then some (digitsVal ds : Int) else none
  | ds =>
    if ds ≠ [] ∧ ds.all Char.isDigit then some (digitsVal ds : Int) else none

def pyInt (s : String) : Option Int :=
  pyIntChars s.toList

/-- Python `float(s)` on plain decimal literals `[sign] digits [. digits]`
(`none` models `ValueError`); exponents are not needed by any claim. -/
def pyFloatCore (cs : List Char) : Option ℚ :=
  match splitOnChar '.' cs with
  | [ip] => if ip ≠ [] ∧ ip.all Char.isDigit then some ((digitsVal ip : Nat) : ℚ) else none
  | [ip, fp] =>
    if (ip ≠ [] ∨ fp ≠ []) ∧ ip.all Char.isDigit ∧ fp.all Char.isDigit then
      some (((digitsVal ip : Nat) : ℚ) + ((digitsVal fp : Nat) : ℚ) / (10 ^ fp.length))
    else none
  | _ => none

def pyFloat (s : String) : Option ℚ :=
  match s.toList with
  | '-' :: rest => (pyFloatCore rest).map (fun q => -q)
  | '+' :: rest => pyFloatCore rest
  | cs => pyFloatCore cs

/-- Python list indexing `l[i]` with an `int` index: non-negative indices
are positional, negative indices wrap around from the end, anything out of
range raises `IndexError` (modelled as `none`). -/
def pyGet {α : Type} (l : List α) (i : Int) : Option α :=
  if 0 ≤ i then l.get? i.toNat
  else if 0 ≤ i + l.length then l.get? (i + l.length).toNat
  else none

/-- Python `int(x)` on a float: truncation toward zero. -/
def ratTrunc (q : ℚ) : Int :=
  if 0 ≤ q then ⌊q⌋ else -⌊-q⌋

/-! ## Triangle strip helpers (`obj2dl.py` lines 95-186) -/

variable {K : Type} [DecidableEq K]

/-- Mirrors `_tri_directed_edge_third`: if triangle `(a,b,c)` (CCW) has directed
edge `p->q`, return the third vertex. -/
def triDirectedEdgeThird (t : K × K × K) (p q : K) : Option K :=
  if t.1 = p ∧ t.2.1 = q then some t.2.2
  else if t.2.1 = p ∧ t.2.2 = q then some t.1
  else if t.2.2 = p ∧ t.1 = q then some t.2.1
  else none

/-- The three directed edges of a triangle, in the order the Python loop
`for i in range(3)` visits them. -/
def edgesOfTri (t : K × K × K) : List (K × K) :=
  [(t.1, t.2.1), (t.2.1, t.2.2), (t.2.2, t.1)]

/-- Unordered-pair equality, `frozenset([e.1, e.2]) == frozenset([p, q])`. -/
def unorderedEq (e : K × K) (p q : K) : Prop :=
  (e.1 = p ∧ e.2 = q) ∨ (e.1 = q ∧ e.2 = p)

instance (e : K × K) (p q : K) : Decidable (unorderedEq e p q) := by
  unfold unorderedEq; infer_instance

/-- Lookup `edge_to_faces[frozenset([p, q])]` for the triangle batch: the face
indices owning that undirected edge, in insertion order (by face index,
then edge position; a degenerate triangle can insert its index twice, as
in Python). -/
def edgeToFacesTri (tris : List (K × K × K)) (p q : K) : List Nat :=
  (List.range tris.length).flatMap (fun fi =>
    match tris.get? fi with
    | some t => (edgesOfTri t).filterMap
        (fun e => if unorderedEq e p q then some fi else none)
    | none => [])

/-- The inner candidate scan of `stripify_triangles`: first unused face in
the candidate list that passes the directed-edge test (`nEven` says the
next strip position is even). Returns the face index and the new vertex. -/
def findTriExt (tris : List (K × K × K)) (cands : List Nat)
    (localUsed : List Nat) (p q : K) (nEven : Bool) : Option (Nat × K) :=
  match cands with
  | [] => none
  | cfi :: rest =>
    if cfi ∈ localUsed then findTriExt tris rest localUsed p q nEven
    else
      match tris.get? cfi with
      | none => findTriExt tris rest localUsed p q nEven
      | some tri =>
        match (if nEven then triDirectedEdgeThird tri p q
               else triDirectedEdgeThird tri q p) with
        | some v => some (cfi, v)
        | none => findTriExt tris rest localUsed p q nEven

/-- The `while True` extension loop of `stripify_triangles`. The strip is
carried reversed (`rs`), so `strip[-1]` is `rs.head` and `strip[-2]` the
next element. Fuel: each successful step consumes one previously unused
face index `< tris.length` while `localUsed` is nonempty, so starting with
fuel `tris.length` the loop always terminates by failing the candidate
search, exactly as the Python loop does; fuel is never exhausted early. -/
def extendTri (tris : List (K × K × K)) :
    Nat → List K → List Nat → List Nat → List K × List Nat × List Nat
  | 0, rs, faces, lu => (rs, faces, lu)
  | Nat.succ fuel, rs, faces, lu =>
    match rs with
    | q :: p :: rest =>
      match findTriExt tris (edgeToFacesTri tris p q) lu p q
          (decide (faces.length % 2 = 0)) with
      | some (cfi, v) =>
        extendTri tris fuel (v :: q :: p :: rest) (faces ++ [cfi]) (cfi :: lu)
      | none => (q :: p :: rest, faces, lu)
    | other => (other, faces, lu)

/-- The rotation `(face[rot], face[(rot+1)%3], face[(rot+2)%3])`. -/
def rotTri (t : K × K × K) : Nat → K × K × K
  | 0 => t
  | 1 => (t.2.1, t.2.2, t.1)
  | _ => (t.2.2, t.1, t.2.1)

/-- One seed rotation of `stripify_triangles`: seed `[a,b,c]`, extend
greedily, return `(strip, faces)` with the strip in forward order. -/
def tryRotTri (tris : List (K × K × K)) (startFi : Nat) (used : List Nat)
    (t : K × K × K) (rot : Nat) : List K × List Nat :=
  let a := (rotTri t rot).1
  let b := (rotTri t rot).2.1
  let c := (rotTri t rot).2.2
  let r := extendTri tris tris.length [c, b, a] [startFi] (startFi :: used)
  (r.1.reverse, r.2.1)

/-- Best of the three rotations, keeping the first one found on ties
(`len(faces) > len(best_faces)` in the source). -/
def bestRotTri (tris : List (K × K × K)) (startFi : Nat) (used : List Nat)
    (t : K × K × K) : List K × List Nat :=
  let r0 := tryRotTri tris startFi used t 0
  let r1 := tryRotTri tris startFi used t 1
  let r2 := tryRotTri tris startFi used t 2
  let b01 := if r1.2.length > r0.2.length then r1 else r0
  if r2.2.length > b01.2.length then r2 else b01

/-- Mirrors `face = resolved_tris[start_fi]` plus the rotation search. The `none`
arm is unreachable: the outer loop only passes indices `< tris.length`. -/
def bestRotTriAt (tris : List (K × K × K)) (startFi : Nat)
    (used : List Nat) : List K × List Nat :=
  match tris.get? startFi with
  | none => ([], [startFi])
  | some t => bestRotTri tris startFi used t

/-- The outer `for start_fi in range(len(...))` loop shared by both
stripifiers: skip used faces, harvest the best greedy chain, mark its
faces used, and record a strip (kept with its face list) or a single. -/
def greedyLoop (harvest : Nat → List Nat → List K × List Nat) :
    List Nat → List Nat → List (List K × List Nat) × List Nat
  | [], _ => ([], [])
  | s :: rest, used =>
    if s ∈ used then greedyLoop harvest rest used
    else
      let hv := harvest s used
      let r := greedyLoop harvest rest (hv.2 ++ used)
      if 2 ≤ hv.2.length then (hv :: r.1, r.2) else (r.1, s :: r.2)

/-- Like `stripify_triangles`, keeping each strip paired with the face indices
it covers (the Python `faces` list, which the source drops on return). -/
def stripifyTrianglesFull (tris : List (K × K × K)) :
    List (List K × List Nat) × List Nat :=
  greedyLoop (bestRotTriAt tris) (List.range tris.length) []

/-- Mirrors `stripify_triangles(resolved_tris)`: returns `(strips, singles)`. -/
def stripify_triangles (tris : List (K × K × K)) : List (List K) × List Nat :=
  ((stripifyTrianglesFull tris).1.map Prod.fst, (stripifyTrianglesFull tris).2)

/-! ## Quad strip helpers (`obj2dl.py` lines 188-275) -/

/-- Corner access `quad[j % 4]`. -/
def quadNth (qd : K × K × K × K) (j : Nat) : K :=
  match j % 4 with
  | 0 => qd.1
  | 1 => qd.2.1
  | 2 => qd.2.2.1
  | _ => qd.2.2.2

/-- Rotation `[quad[(r + j) % 4] for j in range(4)]` as a quad. -/
def rotQuad (qd : K × K × K × K) (r : Nat) : K × K × K × K :=
  (quadNth qd r, quadNth qd (r + 1), quadNth qd (r + 2), quadNth qd (r + 3))

/-- The four directed edges of a quad, in `for i in range(4)` order. -/
def edgesOfQuad (qd : K × K × K × K) : List (K × K) :=
  [(qd.1, qd.2.1), (qd.2.1, qd.2.2.1), (qd.2.2.1, qd.2.2.2), (qd.2.2.2, qd.1)]

/-- Lookup `edge_to_faces[frozenset([p, q])]` for the quad batch. -/
def edgeToFacesQuad (quads : List (K × K × K × K)) (p q : K) : List Nat :=
  (List.range quads.length).flatMap (fun fi =>
    match quads.get? fi with
    | some qd => (edgesOfQuad qd).filterMap
        (fun e => if unorderedEq e p q then some fi else none)
    | none => [])

/-- The `for ci in range(4)` scan: first rotation of the candidate with
`candidate[ci] == exit_q` and `candidate[ci+1] == exit_p`, returned
already rotated (`cv`). -/
def findQuadRotIdx (qd : K × K × K × K) (zq zp : K) : Option (K × K × K × K) :=
  if quadNth qd 0 = zq ∧ quadNth qd 1 = zp then some (rotQuad qd 0)
  else if quadNth qd 1 = zq ∧ quadNth qd 2 = zp then some (rotQuad qd 1)
  else if quadNth qd 2 = zq ∧ quadNth qd 3 = zp then some (rotQuad qd 2)
  else if quadNth qd 3 = zq ∧ quadNth qd 0 = zp then some (rotQuad qd 3)
  else none

/-- Candidate scan of `stripify_quads`: first unused candidate containing
the directed edge `exit_q -> exit_p`, with its rotated orientation. -/
def findQuadExt (quads : List (K × K × K × K)) (cands : List Nat)
    (localUsed : List Nat) (zp zq : K) : Option (Nat × (K × K × K × K)) :=
  match cands with
  | [] => none
  | cfi :: rest =>
    if cfi ∈ localUsed then findQuadExt quads rest localUsed zp zq
    else
      match quads.get? cfi with
      | none => findQuadExt quads rest localUsed zp zq
      | some qd =>
        match findQuadRotIdx qd zq zp with
        | some cv => some (cfi, cv)
        | none => findQuadExt quads rest localUsed zp zq

/-- The `while True` extension loop of `stripify_quads`. The strip is
carried reversed; `strip.extend([cv[3], cv[2]])` becomes pushing `cv.3`
then `cv.2`, and the exit edge becomes `(cv[2], cv[3])`. Fuel
`quads.length` suffices for the same reason as in `extendTri`. -/
def extendQuad (quads : List (K × K × K × K)) :
    Nat → List K → List Nat → List Nat → K → K → List K × List Nat × List Nat
  | 0, rs, faces, lu, _, _ => (rs, faces, lu)
  | Nat.succ fuel, rs, faces, lu, zp, zq =>
    match findQuadExt quads (edgeToFacesQuad quads zp zq) lu zp zq with
    | some (cfi, cv) =>
      extendQuad quads fuel (cv.2.2.1 :: cv.2.2.2 :: rs) (faces ++ [cfi])
        (cfi :: lu) cv.2.2.1 cv.2.2.2
    | none => (rs, faces, lu)

/-- One seed rotation of `stripify_quads`: for CCW seed `(v0,v1,v2,v3)`
the strip starts `[v0, v1, v3, v2]` and the exit edge is `(v2, v3)`. -/
def tryRotQuad (quads : List (K × K × K × K)) (startFi : Nat)
    (used : List Nat) (qd : K × K × K × K) (rot : Nat) : List K × List Nat :=
  let v := rotQuad qd rot
  let r := extendQuad quads quads.length [v.2.2.1, v.2.2.2, v.2.1, v.1]
      [startFi] (startFi :: used) v.2.2.1 v.2.2.2
  (r.1.reverse, r.2.1)

/-- Best of the four seed rotations, first found wins ties. -/
def bestRotQuad (quads : List (K × K × K × K)) (startFi : Nat)
    (used : List Nat) (qd : K × K × K × K) : List K × List Nat :=
  let r0 := tryRotQuad quads startFi used qd 0
  let r1 := tryRotQuad quads startFi used qd 1
  let r2 := tryRotQuad quads startFi used qd 2
  let r3 := tryRotQuad quads startFi used qd 3
  let b01 := if r1.2.length > r0.2.length then r1 else r0
  let b012 := if r2.2.length > b01.2.length then r2 else b01
  if r3.2.length > b012.2.length then r3 else b012

/-- Mirrors `quad = resolved_quads[start_fi]` plus the rotation search. -/
def bestRotQuadAt (quads : List (K × K × K × K)) (startFi : Nat)
    (used : List Nat) : List K × List Nat :=
  match quads.get? startFi with
  | none => ([], [startFi])
  | some qd => bestRotQuad quads startFi used qd

/-- Like `stripify_quads`, keeping each strip with its covered face indices. -/
def stripifyQuadsFull (quads : List (K × K × K × K)) :
    List (List K × List Nat) × List Nat :=
  greedyLoop (bestRotQuadAt quads) (List.range quads.length) []

/-- Mirrors `stripify_quads(resolved_quads)`: returns `(strips, singles)`. -/
def stripify_quads (quads : List (K × K × K × K)) : List (List K) × List Nat :=
  ((stripifyQuadsFull quads).1.map Prod.fst, (stripifyQuadsFull quads).2)

/-! ## Strip decoding (for the winding-preservation property) -/

/-- Position `k` of the forward strip whose reversal is `rs`. -/
def fwd (rs : List K) (k : Nat) : Option K :=
  rs.get? (rs.length - 1 - k)

/-- Triangle `k` of a (forward) strip decodes to the overlapping triple
`(s[k], s[k+1], s[k+2])`; it must have the same vertex-key set as the
original face `faces[k]`. -/
def triSliceOK (tris : List (K × K × K)) (strip : List K)
    (faces : List Nat) (k : Nat) : Prop :=
  ∃ fi t x0 x1 x2,
    faces.get? k = some fi ∧ tris.get? fi = some t ∧
    strip.get? k = some x0 ∧ strip.get? (k + 1) = some x1 ∧
    strip.get? (k + 2) = some x2 ∧
    [x0, x1, x2] ⊆ [t.1, t.2.1, t.2.2] ∧ [t.1, t.2.1, t.2.2] ⊆ [x0, x1, x2]

/-- Quad `k` of a (forward) quad strip decodes to
`(s[2k], s[2k+1], s[2k+3], s[2k+2])`; it must have the same vertex-key
set as the original face `faces[k]`. -/
def quadSliceOK (quads : List (K × K × K × K)) (strip : List K)
    (faces : List Nat) (k : Nat) : Prop :=
  ∃ fi qd x0 x1 x2 x3,
    faces.get? k = some fi ∧ quads.get? fi = some qd ∧
    strip.get? (2 * k) = some x0 ∧ strip.get? (2 * k + 1) = some x1 ∧
    strip.get? (2 * k + 3) = some x2 ∧ strip.get? (2 * k + 2) = some x3 ∧
    [x0, x1, x2, x3] ⊆ [qd.1, qd.2.1, qd.2.2.1, qd.2.2.2] ∧
    [qd.1, qd.2.1, qd.2.2.1, qd.2.2.2] ⊆ [x0, x1, x2, x3]

/-! ## Face-corner resolution (`parse_face_vertex`, lines 58-93) -/

/-- A resolved vertex key `(vertex_idx, texcoord_idx, normal_idx)`,
0-based; indices are `Int` because the raw 1-based value 0 resolves
to `-1`. -/
abbrev VKey := Int × Option Int × Option Int

/-- Body of `parse_face_vertex` after `vertex_str.split('/')`.
Parses 1-based integers per arity, treats an empty middle slot as an
absent texcoord, parses the normal only when vertex-color mode is off,
rejects negative raw indices, and converts to 0-based. `none` models
both `OBJFormatError` and `ValueError` from `int()`. -/
def parseFaceTokens (toks : List String) (useVertexColor : Bool) :
    Option VKey := do
  let (vi, ti, ni) ←
    match toks with
    | [t0] => do
      let v ← pyInt t0
      pure (v, (none : Option Int), (none : Option Int))
    | [t0, t1] => do
      let v ← pyInt t0
      let t ← pyInt t1
      pure (v, some t, (none : Option Int))
    | [t0, t1, t2] => do
      let v ← pyInt t0
      let t ← if t1.toList.length > 0 then do
          let x ← pyInt t1
          pure (some x)
        else pure (none : Option Int)
      let n ← if useVertexColor then pure (none : Option Int)
        else do
          let x ← pyInt t2
          pure (some x)
      pure (v, t, n)
    | _ => none
  if vi < 0 then none
  else do
    let ti' ← match ti with
      | none => pure (none : Option Int)
      | some t => if t < 0 then none else pure (some (t - 1))
    let ni' ← match ni with
      | none => pure (none : Option Int)
      | some n => if n < 0 then none else pure (some (n - 1))
    pure (vi - 1, ti', ni')

/-- Mirrors `parse_face_vertex(vertex_str, use_vertex_color)`. -/
def parse_face_vertex (s : String) (useVertexColor : Bool) : Option VKey :=
  parseFaceTokens ((splitOnChar '/' s.toList).map (fun cs => String.mk cs))
    useVertexColor

/-! ## Vertex emission (`emit_vertex`, lines 281-309) -/

/-- One command issued to the external `DisplayList` writer (the writer
itself is outside the translated sources; the spec's collaborator
contract, section 6, lists exactly these calls). -/
inductive DLCmd : Type
  | beginVtxs (mode : String)
  | endVtxs
  | texcoord (u v : ℚ)
  | normalCmd (x y z : ℚ)
  | color (r g b : ℚ)
  | vtx (x y z : ℚ)
  deriving DecidableEq, Repr

/-- The texture-coordinate part of `emit_vertex` (lines 286-292): flip
`v` (OBJ (0,0) = bottom-left, NDS (0,0) = top-left) and scale both axes
by the texture size. -/
def emitTexcoordCmds (texcoords : List (ℚ × ℚ)) (textureSize : ℚ × ℚ) :
    Option Int → Option (List DLCmd)
  | some ti => do
    let uv ← pyGet texcoords ti
    pure [DLCmd.texcoord (uv.1 * textureSize.1) ((1 - uv.2) * textureSize.2)]
  | none => pure []

/-- The normal part of `emit_vertex` (lines 294-296). -/
def emitNormalCmds (normals : List (ℚ × ℚ × ℚ)) :
    Option Int → Option (List DLCmd)
  | some ni => do
    let n ← pyGet normals ni
    pure [DLCmd.normalCmd n.1 n.2.1 n.2.2]
  | none => pure []

/-- The position/color/vertex-submit part of `emit_vertex` (lines
298-309): position transformed as `(raw + translation) * scale`, the
embedded RGB emitted when vertex-color mode is on. -/
def emitVtxTail (vertices : List (List ℚ)) (modelScale : ℚ)
    (modelTranslation : ℚ × ℚ × ℚ) (useVertexColor : Bool) (vi : Int) :
    Option (List DLCmd) := do
  let row ← pyGet vertices vi
  let v0 ← row.get? 0
  let v1 ← row.get? 1
  let v2 ← row.get? 2
  let vtx0 := (v0 + modelTranslation.1) * modelScale
  let vtx1 := (v1 + modelTranslation.2.1) * modelScale
  let vtx2 := (v2 + modelTranslation.2.2) * modelScale
  let cCmds ← if useVertexColor then do
      let r ← row.get? 3
      let g ← row.get? 4
      let b ← row.get? 5
      pure [DLCmd.color r g b]
    else pure ([] : List DLCmd)
  pure (cCmds ++ [DLCmd.vtx vtx0 vtx1 vtx2])

/-- Mirrors `emit_vertex(dl, vk, ...)`: the commands appended to the display list
for one vertex key, in source order (texcoord, normal, color, vertex), or
`none` if a lookup raises (`IndexError`). -/
def emit_vertex (vertices : List (List ℚ)) (texcoords : List (ℚ × ℚ))
    (normals : List (ℚ × ℚ × ℚ)) (textureSize : ℚ × ℚ) (modelScale : ℚ)
    (modelTranslation : ℚ × ℚ × ℚ) (useVertexColor : Bool) (vk : VKey) :
    Option (List DLCmd) := do
  let tcCmds ← emitTexcoordCmds texcoords textureSize vk.2.1
  let nCmds ← emitNormalCmds normals vk.2.2
  let tailCmds ← emitVtxTail vertices modelScale modelTranslation
      useVertexColor vk.1
  pure (tcCmds ++ nCmds ++ tailCmds)

/-! ## Display list generation (`generate_display_list`, lines 315-381) -/

/-- Emit all vertex keys of a list, concatenating their commands. -/
def emitAll (vertices : List (List ℚ)) (texcoords : List (ℚ × ℚ))
    (normals : List (ℚ × ℚ × ℚ)) (textureSize : ℚ × ℚ) (modelScale : ℚ)
    (modelTranslation : ℚ × ℚ × ℚ) (useVertexColor : Bool)
    (vks : List VKey) : Option (List DLCmd) := do
  let cmds ← vks.mapM (emit_vertex vertices texcoords normals textureSize
      modelScale modelTranslation useVertexColor)
  pure cmds.flatten

/-- Mirrors `generate_display_list(...)`: strip blocks, then the single-face
blocks, in the source's fixed order (triangle strips, separate triangles,
quad strips, separate quads). -/
def generate_display_list (resolvedTris : List (VKey × VKey × VKey))
    (resolvedQuads : List (VKey × VKey × VKey × VKey))
    (vertices : List (List ℚ)) (texcoords : List (ℚ × ℚ))
    (normals : List (ℚ × ℚ × ℚ)) (textureSize : ℚ × ℚ) (modelScale : ℚ)
    (modelTranslation : ℚ × ℚ × ℚ) (useVertexColor : Bool)
    (noStrip : Bool) : Option (List DLCmd) := do
  let em := emitAll vertices texcoords normals textureSize modelScale
      modelTranslation useVertexColor
  let triStrips := if noStrip then [] else (stripify_triangles resolvedTris).1
  let triSingles := if noStrip then List.range resolvedTris.length
      else (stripify_triangles resolvedTris).2
  let quadStrips := if noStrip then [] else (stripify_quads resolvedQuads).1
  let quadSingles := if noStrip then List.range resolvedQuads.length
      else (stripify_quads resolvedQuads).2
  let triStripBlocks ← triStrips.mapM (fun s => do
    let body ← em s
    pure (DLCmd.beginVtxs "triangle_strip" :: body ++ [DLCmd.endVtxs]))
  let triSingleBlock ←
    if triSingles = [] then pure ([] : List DLCmd)
    else do
      let body ← triSingles.mapM (fun fi => do
        let t ← resolvedTris.get? fi
        em [t.1, t.2.1, t.2.2])
      pure (DLCmd.beginVtxs "triangles" :: body.flatten ++ [DLCmd.endVtxs])
  let quadStripBlocks ← quadStrips.mapM (fun s => do
    let body ← em s
    pure (DLCmd.beginVtxs "quad_strip" :: body ++ [DLCmd.endVtxs]))
  let quadSingleBlock ←
    if quadSingles = [] then pure ([] : List DLCmd)
    else do
      let body ← quadSingles.mapM (fun fi => do
        let qd ← resolvedQuads.get? fi
        em [qd.1, qd.2.1, qd.2.2.1, qd.2.2.2])
      pure (DLCmd.beginVtxs "quads" :: body.flatten ++ [DLCmd.endVtxs])
  pure (triStripBlocks.flatten ++ triSingleBlock ++ quadStripBlocks.flatten
    ++ quadSingleBlock)

/-! ## Material packing (`mtl_parser.py` lines 13-50, `obj2dl.py` 630-641) -/

/-- Mirrors `float_to_rgb15`: float RGB in [0,1] to NDS RGB15 (5-5-5). -/
def float_to_rgb15 (r g b : ℚ) : Nat :=
  let ri := (max 0 (min 31 (ratTrunc (r * 31)))).toNat
  let gi := (max 0 (min 31 (ratTrunc (g * 31)))).toNat
  let bi := (max 0 (min 31 (ratTrunc (b * 31)))).toNat
  ri ||| (gi <<< 5) ||| (bi <<< 10)

/-- Mirrors `pack_diffuse_ambient(kd, ka)` (the converter never sets the
vertex-color bit). -/
def pack_diffuse_ambient (kd ka : ℚ × ℚ × ℚ) : Nat :=
  float_to_rgb15 kd.1 kd.2.1 kd.2.2 ||| (float_to_rgb15 ka.1 ka.2.1 ka.2.2 <<< 16)

/-- Mirrors `pack_specular_emission(ks, ke)` (the shininess bit is never set). -/
def pack_specular_emission (ks ke : ℚ × ℚ × ℚ) : Nat :=
  float_to_rgb15 ks.1 ks.2.1 ks.2.2 ||| (float_to_rgb15 ke.1 ke.2.1 ke.2.2 <<< 16)

/-- The submesh alpha expression of `convert_obj` (line 639):
`max(0, min(31, int(alpha * 31)))`. -/
def dlmmAlpha (d : ℚ) : Int :=
  max 0 (min 31 (ratTrunc (d * 31)))

/-- One parsed `.mtl` material record (`parse_mtl`'s per-material dict). -/
structure MtlRecord : Type where
  Kd : ℚ × ℚ × ℚ
  Ka : ℚ × ℚ × ℚ
  Ks : ℚ × ℚ × ℚ
  Ke : ℚ × ℚ × ℚ
  d : ℚ
  map_Kd : Option String
  deriving DecidableEq

/-! ## OBJ parsing (`parse_obj`, lines 451-510) -/

/-- Parser state: the four output structures plus the current material
name and the material-library reference. -/
structure ObjState : Type where
  vertices : List (List ℚ)
  texcoords : List (ℚ × ℚ)
  normals : List (ℚ × ℚ × ℚ)
  materialFaces : List (String × List (List String))
  currentMaterial : String
  mtlFile : Option String
  deriving DecidableEq

/-- Mirrors `material_faces[current_material].append(tokens)` on the insertion
ordered mapping (Python `defaultdict(list)`). -/
def addFace (mf : List (String × List (List String))) (name : String)
    (face : List String) : List (String × List (List String)) :=
  match mf with
  | [] => [(name, [face])]
  | (n, fl) :: rest =>
    if n = name then (n, fl ++ [face]) :: rest
    else (n, fl) :: addFace rest name face

/-- One iteration of the `parse_obj` line loop. `none` models a raised
`OBJFormatError` or `ValueError`. The `mtllib` path join with the input
file's directory is file-system context and is modelled by storing the
raw token. -/
def parseObjLine (useVertexColor : Bool) (st : ObjState) (line : String) :
    Option ObjState := do
  let line := stripComment line
  let tokens := pySplit line
  if tokens.length < 2 then pure st
  else do
    let cmd := tokens.headD ""
    let args := tokens.tail
    if cmd = "mtllib" then pure { st with mtlFile := some (args.headD "") }
    else if cmd = "usemtl" then
      pure { st with currentMaterial := String.intercalate " " args }
    else if cmd = "v" then
      if args.length = 3 then
        if useVertexColor then none  -- "Found vertex with no color info"
        else do
          let v ← args.mapM pyFloat
          pure { st with vertices := st.vertices ++ [v] }
      else if args.length = 6 then do
        let v ← args.mapM pyFloat
        pure { st with vertices := st.vertices ++ [v] }
      else none  -- "Unsupported vertex command"
    else if cmd = "vt" then do
      let t0 ← args.get? 0
      let t1 ← args.get? 1
      let u ← pyFloat t0
      let v ← pyFloat t1
      pure { st with texcoords := st.texcoords ++ [(u, v)] }
    else if cmd = "vn" then do
      let t0 ← args.get? 0
      let t1 ← args.get? 1
      let t2 ← args.get? 2
      let x ← pyFloat t0
      let y ← pyFloat t1
      let z ← pyFloat t2
      pure { st with normals := st.normals ++ [(x, y, z)] }
    else if cmd = "f" then
      pure { st with materialFaces := addFace st.materialFaces st.currentMaterial args }
    else if cmd = "l" then none  -- "Unsupported polyline command"
    else pure st  -- silently ignore other commands

/-- Initial parser state. -/
def initObjState : ObjState :=
  ⟨[], [], [], [], "__default__", none⟩

/-- Mirrors `parse_obj(input_file, use_vertex_color)` over the file's lines. -/
def parse_obj (lines : List String) (useVertexColor : Bool) :
    Option ObjState :=
  lines.foldlM (parseObjLine useVertexColor) initObjState

/-! ## DLMM binary writer (`save_dlmm`, lines 387-445) -/

def DLMM_MAGIC : Nat := 0x4D4D4C44

def DLMM_VERSION : Nat := 1

def DLMM_SUBMESH_HEADER_SIZE : Nat := 56

/-- Mirrors `struct.pack('<I', x)` (the converter never passes a value that
overflows 32 bits; the `% 2^8` residues keep the byte shape exact). -/
def u32le (x : Nat) : List Nat :=
  [x % 256, x / 256 % 256, x / 65536 % 256, x / 16777216 % 256]

/-- Mirrors `struct.pack('<H', x)`. -/
def u16le (x : Nat) : List Nat :=
  [x % 256, x / 256 % 256]

/-- A submesh as handed to `save_dlmm`. `name` is the ASCII-encoded name
(`str.encode('ascii', errors='replace')` is host-string behaviour; the
record carries the resulting bytes) and `dl` is the byte buffer the
external writer's `get_binary()` produced for the display list. -/
structure Submesh : Type where
  name : List Nat
  dl : List Nat
  diffuse_ambient : Nat
  specular_emission : Nat
  color : Nat
  alpha : Nat
  has_texture : Bool

/-- Name packing: truncate to 31 bytes, zero-pad to 32. -/
def packName (name : List Nat) : List Nat :=
  let nb := name.take 31
  nb ++ List.replicate (32 - nb.length) 0

/-- One 56-byte submesh header: five u32 (offset, length, packed colors,
RGB15 color), two u16 (alpha, flags), then the 32-byte name field. -/
def submeshHeader (offset : Nat) (size : Nat) (sub : Submesh) : List Nat :=
  u32le offset ++ u32le size ++ u32le sub.diffuse_ambient ++
    u32le sub.specular_emission ++ u32le sub.color ++ u16le sub.alpha ++
    u16le (if sub.has_texture then 1 else 0) ++ packName sub.name

/-- The running-sum offset computation of `save_dlmm`: offsets start right
after the last header and advance by each payload's length. -/
def dlOffsets (headerSize : Nat) (sizes : List Nat) : List Nat :=
  (sizes.foldl (fun (acc : List Nat × Nat) sz => (acc.1 ++ [acc.2], acc.2 + sz))
    ([], headerSize)).1

/-- Mirrors `save_dlmm(output_file, submeshes)`: the bytes written to the output
file. -/
def save_dlmm (submeshes : List Submesh) : List Nat :=
  let num := submeshes.length
  let headerSize := 12 + DLMM_SUBMESH_HEADER_SIZE * num
  let dlBinaries := submeshes.map Submesh.dl
  let offs := dlOffsets headerSize (dlBinaries.map List.length)
  u32le DLMM_MAGIC ++ u32le DLMM_VERSION ++ u32le num ++
    ((submeshes.zip offs).flatMap
      (fun p => submeshHeader p.2 p.1.dl.length p.1)) ++
    dlBinaries.flatten

/-! ## Main conversion (`convert_obj`, lines 516-647) -/

/-- Mirrors `VALID_TEXTURE_SIZES` / `is_valid_texture_size`. -/
def VALID_TEXTURE_SIZES : List Nat := [8, 16, 32, 64, 128, 256, 512, 1024]

def is_valid_texture_size (size : Nat) : Bool :=
  size ∈ VALID_TEXTURE_SIZES

/-- Python `dict.get(key)` on the parsed material table. -/
def lookupMat (materials : List (String × MtlRecord)) (name : String) :
    Option MtlRecord :=
  match materials with
  | [] => none
  | (n, r) :: rest => if n = name then some r else lookupMat rest name

/-- A submesh of the multi-material path, before byte serialization (the
display list is kept as the command stream handed to the external
writer). -/
structure SubmeshData : Type where
  name : String
  dl : List DLCmd
  diffuse_ambient : Nat
  specular_emission : Nat
  color : Nat
  alpha : Int
  has_texture : Bool
  deriving DecidableEq

/-- The two output shapes of `convert_obj`: the legacy single-material
display list saved via the external writer, or the DLMM submesh list
handed to `save_dlmm`. -/
inductive ConvOutput : Type
  | legacy (dl : List DLCmd)
  | dlmm (subs : List SubmeshData)
  deriving DecidableEq

def isLegacy : Option ConvOutput → Bool
  | some (ConvOutput.legacy _) => true
  | _ => false

def isDlmm : Option ConvOutput → Bool
  | some (ConvOutput.dlmm _) => true
  | _ => false

/-- The face-resolution loop shared by both `convert_obj` paths: arity
check (only 3 or 4 corners), then `parse_face_vertex` per corner,
splitting into triangle and quad lists in input order. -/
def resolveFaces (useVertexColor : Bool) :
    List (List String) →
    Option (List (VKey × VKey × VKey) × List (VKey × VKey × VKey × VKey))
  | [] => some ([], [])
  | face :: rest => do
    let n := face.length
    if n ≠ 3 ∧ n ≠ 4 then none  -- "Unsupported polygons with n faces"
    else do
      let vkeys ← face.mapM (fun v => parse_face_vertex v useVertexColor)
      let (ts, qs) ← resolveFaces useVertexColor rest
      match vkeys with
      | [a, b, c] => some ((a, b, c) :: ts, qs)
      | [a, b, c, d] => some (ts, (a, b, c, d) :: qs)
      | _ => none

/-- Per-material effective texture size of the multi-material path:
measured image dimensions when the material references a texture whose
file is found (`probe`) and both dimensions are hardware-valid, otherwise
the global `--texture` fallback. An unreadable image header (a `probe`
success is a readable header) would abort the conversion and is outside
the claims checked here. -/
def matTexSize (textureSize : ℚ × ℚ) (probe : String → Option (Nat × Nat))
    (matProps : Option MtlRecord) : ℚ × ℚ :=
  match matProps.bind MtlRecord.map_Kd with
  | none => textureSize
  | some mk =>
    match probe mk with
    | none => textureSize  -- "Warning: texture not found" (non-fatal)
    | some (w, h) =>
      if is_valid_texture_size w ∧ is_valid_texture_size h then
        ((w : ℚ), (h : ℚ))
      else textureSize  -- "non-NDS size, using fallback" (non-fatal)

/-- The per-material loop of the multi-material path: resolve the faces,
build the display list with the material's effective texture size, and
pack the material fields. Submeshes come out in material encounter
order. -/
def buildSubmeshes (vertices : List (List ℚ)) (texcoords : List (ℚ × ℚ))
    (normals : List (ℚ × ℚ × ℚ)) (textureSize : ℚ × ℚ) (modelScale : ℚ)
    (modelTranslation : ℚ × ℚ × ℚ) (useVertexColor noStrip : Bool)
    (materials : List (String × MtlRecord))
    (probe : String → Option (Nat × Nat)) :
    List (String × List (List String)) → Option (List SubmeshData)
  | [] => some []
  | (matName, faceList) :: rest => do
    let (rts, rqs) ← resolveFaces useVertexColor faceList
    let matProps := lookupMat materials matName
    let ts := matTexSize textureSize probe matProps
    let dl ← generate_display_list rts rqs vertices texcoords normals ts
        modelScale modelTranslation useVertexColor noStrip
    let kd := ((matProps.map MtlRecord.Kd).getD (1, 1, 1))
    let ka := ((matProps.map MtlRecord.Ka).getD (0, 0, 0))
    let ks := ((matProps.map MtlRecord.Ks).getD (0, 0, 0))
    let ke := ((matProps.map MtlRecord.Ke).getD (0, 0, 0))
    let alpha := ((matProps.map MtlRecord.d).getD 1)
    let hasTex := (matProps.bind MtlRecord.map_Kd).isSome
    let subsRest ← buildSubmeshes vertices texcoords normals textureSize
        modelScale modelTranslation useVertexColor noStrip materials probe rest
    some ({ name := matName, dl := dl,
            diffuse_ambient := pack_diffuse_ambient kd ka,
            specular_emission := pack_specular_emission ks ke,
            color := float_to_rgb15 kd.1 kd.2.1 kd.2.2,
            alpha := dlmmAlpha alpha,
            has_texture := hasTex } :: subsRest)

/-- Mirrors `convert_obj(...)`: parse, then either the legacy single-material
path (all faces concatenated in material encounter order, one display
list saved through the external writer) or the multi-material DLMM path.
`materials` stands for the parsed `.mtl` table (empty when no library
was found) and `probe` for the texture-image dimension lookup. -/
def convert_obj (lines : List String) (textureSize : ℚ × ℚ)
    (modelScale : ℚ) (modelTranslation : ℚ × ℚ × ℚ)
    (useVertexColor noStrip multiMaterial : Bool)
    (materials : List (String × MtlRecord))
    (probe : String → Option (Nat × Nat)) : Option ConvOutput := do
  let st ← parse_obj lines useVertexColor
  let useMulti := multiMaterial && decide (1 < st.materialFaces.length)
  if useMulti then do
    let subs ← buildSubmeshes st.vertices st.texcoords st.normals
        textureSize modelScale modelTranslation useVertexColor noStrip
        materials probe st.materialFaces
    pure (ConvOutput.dlmm subs)
  else do
    let allFaces := (st.materialFaces.map Prod.snd).flatten
    let (rts, rqs) ← resolveFaces useVertexColor allFaces
    let dl ← generate_display_list rts rqs st.vertices st.texcoords
        st.normals textureSize modelScale modelTranslation useVertexColor
        noStrip
    pure (ConvOutput.legacy dl)

/-! ## Specification predicates -/

/-- What one greedy chain harvested from start face `s` must satisfy for
the face partition: a duplicate-free face list containing `s`, all faces
in range and previously unused. -/
def ChainOK {K : Type} (n : Nat) (s : Nat) (used : List Nat)
    (hv : List K × List Nat) : Prop :=
  hv.2.Nodup ∧ s ∈ hv.2 ∧ ∀ f ∈ hv.2, f < n ∧ f ∉ used

/-- 0-based validity of an index into a table of the given length (the
spec's notion of a valid index). -/
def validIdx (len : Nat) (i : Int) : Prop :=
  0 ≤ i ∧ i < (len : Int)

instance (len : Nat) (i : Int) : Decidable (validIdx len i) := by
  unfold validIdx; infer_instance

/-! # Theorems -/

/-! ## Stripifier support lemmas -/

theorem mem_edgeToFacesTri {tris : List (K × K × K)} {p q : K} {cfi : Nat}
    (h : cfi ∈ edgeToFacesTri tris p q) : cfi < tris.length := by
  unfold edgeToFacesTri at h
  simp only [List.mem_flatMap, List.mem_range] at h
  obtain ⟨fi, hfi, hmem⟩ := h
  cases hg : tris.get? fi with
  | none => rw [hg] at hmem; simp at hmem
  | some t =>
    rw [hg] at hmem
    simp only [List.mem_filterMap] at hmem
    obtain ⟨e, _, he⟩ := hmem
    split at he
    · cases he; exact hfi
    · cases he

theorem mem_edgeToFacesQuad {quads : List (K × K × K × K)} {p q : K}
    {cfi : Nat} (h : cfi ∈ edgeToFacesQuad quads p q) : cfi < quads.length := by
  unfold edgeToFacesQuad at h
  simp only [List.mem_flatMap, List.mem_range] at h
  obtain ⟨fi, hfi, hmem⟩ := h
  cases hg : quads.get? fi with
  | none => rw [hg] at hmem; simp at hmem
  | some t =>
    rw [hg] at hmem
    simp only [List.mem_filterMap] at hmem
    obtain ⟨e, _, he⟩ := hmem
    split at he
    · cases he; exact hfi
    · cases he

/-- A successful directed-edge test means the candidate triangle's vertex
set is exactly `{p, q, v}`. -/
theorem triDirectedEdgeThird_mem {t : K × K × K} {p q v : K}
    (h : triDirectedEdgeThird t p q = some v) :
    ∀ y, (y = p ∨ y = q ∨ y = v) ↔ (y = t.1 ∨ y = t.2.1 ∨ y = t.2.2) := by
  rcases t with ⟨a, b, c⟩
  simp only [triDirectedEdgeThird] at h
  split at h
  · rename_i hc
    injection h with h'
    subst h'
    obtain ⟨h1, h2⟩ := hc
    subst h1; subst h2
    intro y; tauto
  · split at h
    · rename_i hc
      injection h with h'
      subst h'
      obtain ⟨h1, h2⟩ := hc
      subst h1; subst h2
      intro y; tauto
    · split at h
      · rename_i hc
        injection h with h'
        subst h'
        obtain ⟨h1, h2⟩ := hc
        subst h1; subst h2
        intro y; tauto
      · cases h

theorem findTriExt_spec {tris : List (K × K × K)} {cands localUsed : List Nat}
    {p q : K} {nEven : Bool} {cfi : Nat} {v : K}
    (h : findTriExt tris cands localUsed p q nEven = some (cfi, v)) :
    cfi ∈ cands ∧ cfi ∉ localUsed ∧
    ∃ t, tris.get? cfi = some t ∧
      (if nEven then triDirectedEdgeThird t p q
       else triDirectedEdgeThird t q p) = some v := by
  induction cands with
  | nil => simp [findTriExt] at h
  | cons c rest ih =>
    rw [findTriExt] at h
    split at h
    · obtain ⟨h1, h2, h3⟩ := ih h
      exact ⟨List.mem_cons_of_mem _ h1, h2, h3⟩
    · rename_i hcu
      split at h
      · obtain ⟨h1, h2, h3⟩ := ih h
        exact ⟨List.mem_cons_of_mem _ h1, h2, h3⟩
      · rename_i t hg
        split at h
        · rename_i v' hf
          injection h with h'
          have hc : c = cfi := congrArg Prod.fst h'
          have hv : v' = v := congrArg Prod.snd h'
          subst hc; subst hv
          exact ⟨List.mem_cons_self _ _, hcu, t, hg, hf⟩
        · obtain ⟨h1, h2, h3⟩ := ih h
          exact ⟨List.mem_cons_of_mem _ h1, h2, h3⟩

/-- The vertex list of a quad, for set comparisons. -/
theorem quadNth_cases (qd : K × K × K × K) (j : Nat) :
    quadNth qd j = qd.1 ∨ quadNth qd j = qd.2.1 ∨ quadNth qd j = qd.2.2.1 ∨
    quadNth qd j = qd.2.2.2 := by
  have h4 : j % 4 = 0 ∨ j % 4 = 1 ∨ j % 4 = 2 ∨ j % 4 = 3 := by omega
  unfold quadNth
  rcases h4 with h | h | h | h <;> rw [h] <;> simp

theorem rotQuad_cases (qd : K × K × K × K) (r : Nat) :
    rotQuad qd r = (qd.1, qd.2.1, qd.2.2.1, qd.2.2.2) ∨
    rotQuad qd r = (qd.2.1, qd.2.2.1, qd.2.2.2, qd.1) ∨
    rotQuad qd r = (qd.2.2.1, qd.2.2.2, qd.1, qd.2.1) ∨
    rotQuad qd r = (qd.2.2.2, qd.1, qd.2.1, qd.2.2.1) := by
  have h4 : r % 4 = 0 ∨ r % 4 = 1 ∨ r % 4 = 2 ∨ r % 4 = 3 := by omega
  unfold rotQuad quadNth
  rcases h4 with h | h | h | h
  · have e1 : (r + 1) % 4 = 1 := by omega
    have e2 : (r + 2) % 4 = 2 := by omega
    have e3 : (r + 3) % 4 = 3 := by omega
    rw [h, e1, e2, e3]; left; rfl
  · have e1 : (r + 1) % 4 = 2 := by omega
    have e2 : (r + 2) % 4 = 3 := by omega
    have e3 : (r + 3) % 4 = 0 := by omega
    rw [h, e1, e2, e3]; right; left; rfl
  · have e1 : (r + 1) % 4 = 3 := by omega
    have e2 : (r + 2) % 4 = 0 := by omega
    have e3 : (r + 3) % 4 = 1 := by omega
    rw [h, e1, e2, e3]; right; right; left; rfl
  · have e1 : (r + 1) % 4 = 0 := by omega
    have e2 : (r + 2) % 4 = 1 := by omega
    have e3 : (r + 3) % 4 = 2 := by omega
    rw [h, e1, e2, e3]; right; right; right; rfl

/-- Rotating a quad preserves its vertex set. -/
theorem rotQuad_mem (qd : K × K × K × K) (r : Nat) : ∀ y,
    (y ∈ [(rotQuad qd r).1, (rotQuad qd r).2.1, (rotQuad qd r).2.2.1,
          (rotQuad qd r).2.2.2]
     ↔ y ∈ [qd.1, qd.2.1, qd.2.2.1, qd.2.2.2]) := by
  intro y
  rcases rotQuad_cases qd r with h | h | h | h <;> rw [h] <;> simp <;> tauto

theorem rotTri_cases (t : K × K × K) (r : Nat) :
    rotTri t r = t ∨ rotTri t r = (t.2.1, t.2.2, t.1) ∨
    rotTri t r = (t.2.2, t.1, t.2.1) := by
  match r with
  | 0 => left; rfl
  | 1 => right; left; rfl
  | Nat.succ (Nat.succ _) => right; right; rfl

/-- Rotating a triangle preserves its vertex set. -/
theorem rotTri_mem (t : K × K × K) (r : Nat) : ∀ y,
    (y ∈ [(rotTri t r).1, (rotTri t r).2.1, (rotTri t r).2.2]
     ↔ y ∈ [t.1, t.2.1, t.2.2]) := by
  intro y
  rcases rotTri_cases t r with h | h | h <;> rw [h] <;> simp <;> tauto

/-- A successful `findQuadRotIdx` returns a rotation of the candidate
whose first two corners are the (reversed) exit edge. -/
theorem findQuadRotIdx_spec {qd cv : K × K × K × K} {zq zp : K}
    (h : findQuadRotIdx qd zq zp = some cv) :
    cv.1 = zq ∧ cv.2.1 = zp ∧ ∃ r, cv = rotQuad qd r := by
  unfold findQuadRotIdx at h
  split at h
  · rename_i hc
    injection h with h'
    subst h'
    exact ⟨hc.1, by
      have : quadNth qd (0 + 1) = zp := hc.2
      simpa [rotQuad] using this, 0, rfl⟩
  · split at h
    · rename_i hc
      injection h with h'
      subst h'
      refine ⟨hc.1, ?_, 1, rfl⟩
      have : quadNth qd (1 + 1) = zp := hc.2
      simpa [rotQuad] using this
    · split at h
      · rename_i hc
        injection h with h'
        subst h'
        refine ⟨hc.1, ?_, 2, rfl⟩
        have : quadNth qd (2 + 1) = zp := hc.2
        simpa [rotQuad] using this
      · split at h
        · rename_i hc
          injection h with h'
          subst h'
          refine ⟨hc.1, ?_, 3, rfl⟩
          have h0 : quadNth qd 0 = zp := hc.2
          have : quadNth qd (3 + 1) = quadNth qd 0 := by
            unfold quadNth; norm_num
          simpa [rotQuad, this] using h0
        · cases h

theorem findQuadExt_spec {quads : List (K × K × K × K)}
    {cands localUsed : List Nat} {zp zq : K} {cfi : Nat} {cv : K × K × K × K}
    (h : findQuadExt quads cands localUsed zp zq = some (cfi, cv)) :
    cfi ∈ cands ∧ cfi ∉ localUsed ∧
    ∃ qd, quads.get? cfi = some qd ∧ findQuadRotIdx qd zq zp = some cv := by
  induction cands with
  | nil => simp [findQuadExt] at h
  | cons c rest ih =>
    rw [findQuadExt] at h
    split at h
    · obtain ⟨h1, h2, h3⟩ := ih h
      exact ⟨List.mem_cons_of_mem _ h1, h2, h3⟩
    · rename_i hcu
      split at h
      · obtain ⟨h1, h2, h3⟩ := ih h
        exact ⟨List.mem_cons_of_mem _ h1, h2, h3⟩
      · rename_i qd hg
        split at h
        · rename_i cv' hf
          injection h with h'
          have hc : c = cfi := congrArg Prod.fst h'
          have hv : cv' = cv := congrArg Prod.snd h'
          subst hc; subst hv
          exact ⟨List.mem_cons_self _ _, hcu, qd, hg, hf⟩
        · obtain ⟨h1, h2, h3⟩ := ih h
          exact ⟨List.mem_cons_of_mem _ h1, h2, h3⟩

/-- Invariants of the triangle strip extension loop: the strip grows by a
list of new vertices, the face list by an equally long list of fresh,
duplicate-free, in-range face indices, and the local used set by exactly
those faces. -/
theorem extendTri_inv (tris : List (K × K × K)) (fuel : Nat) :
    ∀ rs faces lu, ∃ nv nf,
      (extendTri tris fuel rs faces lu).1 = nv ++ rs ∧
      (extendTri tris fuel rs faces lu).2.1 = faces ++ nf ∧
      (∀ x, x ∈ (extendTri tris fuel rs faces lu).2.2 ↔ x ∈ nf ∨ x ∈ lu) ∧
      nf.Nodup ∧ (∀ x ∈ nf, x ∉ lu ∧ x < tris.length) ∧
      nv.length = nf.length := by
  induction fuel with
  | zero =>
    intro rs faces lu
    exact ⟨[], [], rfl, by simp [extendTri], by simp [extendTri], by simp,
      by simp, rfl⟩
  | succ fuel ih =>
    intro rs faces lu
    match rs with
    | [] =>
      exact ⟨[], [], rfl, by simp [extendTri], by simp [extendTri], by simp,
        by simp, rfl⟩
    | [x] =>
      exact ⟨[], [], rfl, by simp [extendTri], by simp [extendTri], by simp,
        by simp, rfl⟩
    | q :: p :: rest =>
      rw [extendTri]
      cases hf : findTriExt tris (edgeToFacesTri tris p q) lu p q
          (decide (faces.length % 2 = 0)) with
      | none =>
        exact ⟨[], [], rfl, by simp, by simp, by simp, by simp, rfl⟩
      | some pr =>
        obtain ⟨cfi, v⟩ := pr
        obtain ⟨hc1, hc2, _⟩ := findTriExt_spec hf
        have hlt : cfi < tris.length := mem_edgeToFacesTri hc1
        obtain ⟨nv, nf, g1, g2, g3, g4, g5, g6⟩ :=
          ih (v :: q :: p :: rest) (faces ++ [cfi]) (cfi :: lu)
        refine ⟨nv ++ [v], cfi :: nf, ?_, ?_, ?_, ?_, ?_, ?_⟩
        · rw [g1]; simp
        · rw [g2]; simp
        · intro x
          rw [g3]
          simp only [List.mem_cons]
          tauto
        · refine List.Nodup.cons ?_ g4
          intro hmem
          have := (g5 cfi hmem).1
          simp at this
        · intro x hx
          rcases List.mem_cons.mp hx with rfl | hx'
          · exact ⟨hc2, hlt⟩
          · have := g5 x hx'
            refine ⟨fun hxlu => this.1 ?_, this.2⟩
            exact List.mem_cons_of_mem _ hxlu
        · simp [g6]

/-- Invariants of the quad strip extension loop; the strip grows by two
vertices per harvested face. -/
theorem extendQuad_inv (quads : List (K × K × K × K)) (fuel : Nat) :
    ∀ rs faces lu zp zq, ∃ nv nf,
      (extendQuad quads fuel rs faces lu zp zq).1 = nv ++ rs ∧
      (extendQuad quads fuel rs faces lu zp zq).2.1 = faces ++ nf ∧
      (∀ x, x ∈ (extendQuad quads fuel rs faces lu zp zq).2.2 ↔
        x ∈ nf ∨ x ∈ lu) ∧
      nf.Nodup ∧ (∀ x ∈ nf, x ∉ lu ∧ x < quads.length) ∧
      nv.length = 2 * nf.length := by
  induction fuel with
  | zero =>
    intro rs faces lu zp zq
    exact ⟨[], [], rfl, by simp [extendQuad], by simp [extendQuad], by simp,
      by simp, rfl⟩
  | succ fuel ih =>
    intro rs faces lu zp zq
    rw [extendQuad]
    cases hf : findQuadExt quads (edgeToFacesQuad quads zp zq) lu zp zq with
    | none =>
      exact ⟨[], [], rfl, by simp, by simp, by simp, by simp, rfl⟩
    | some pr =>
      obtain ⟨cfi, cv⟩ := pr
      obtain ⟨hc1, hc2, _⟩ := findQuadExt_spec hf
      have hlt : cfi < quads.length := mem_edgeToFacesQuad hc1
      obtain ⟨nv, nf, g1, g2, g3, g4, g5, g6⟩ :=
        ih (cv.2.2.1 :: cv.2.2.2 :: rs) (faces ++ [cfi]) (cfi :: lu)
          cv.2.2.1 cv.2.2.2
      refine ⟨nv ++ [cv.2.2.1, cv.2.2.2], cfi :: nf, ?_, ?_, ?_, ?_, ?_, ?_⟩
      · rw [g1]; simp
      · rw [g2]; simp
      · intro x
        rw [g3]
        simp only [List.mem_cons]
        tauto
      · refine List.Nodup.cons ?_ g4
        intro hmem
        have := (g5 cfi hmem).1
        simp at this
      · intro x hx
        rcases List.mem_cons.mp hx with rfl | hx'
        · exact ⟨hc2, hlt⟩
        · have := g5 x hx'
          refine ⟨fun hxlu => this.1 ?_, this.2⟩
          exact List.mem_cons_of_mem _ hxlu
      · simp [g6]; ring

theorem subsets_of_mem_iff (l1 l2 : List K) (h : ∀ y, y ∈ l1 ↔ y ∈ l2) :
    l1 ⊆ l2 ∧ l2 ⊆ l1 := by
  constructor
  · intro y hy; exact (h y).mp hy
  · intro y hy; exact (h y).mpr hy

/-- The extension loop preserves per-face decodability of the (forward)
triangle strip. -/
theorem extendTri_decode (tris : List (K × K × K)) (fuel : Nat) :
    ∀ rs faces lu,
      rs.length = faces.length + 2 →
      (∀ k, k < faces.length → triSliceOK tris rs.reverse faces k) →
      (extendTri tris fuel rs faces lu).1.length
          = (extendTri tris fuel rs faces lu).2.1.length + 2 ∧
      ∀ k, k < (extendTri tris fuel rs faces lu).2.1.length →
        triSliceOK tris (extendTri tris fuel rs faces lu).1.reverse
          (extendTri tris fuel rs faces lu).2.1 k := by
  induction fuel with
  | zero =>
    intro rs faces lu hlen hslices
    exact ⟨by simpa [extendTri] using hlen, by simpa [extendTri] using hslices⟩
  | succ fuel ih =>
    intro rs faces lu hlen hslices
    match rs, hlen with
    | q :: p :: rest, hlen =>
      rw [extendTri]
      cases hf : findTriExt tris (edgeToFacesTri tris p q) lu p q
          (decide (faces.length % 2 = 0)) with
      | none => exact ⟨by simpa using hlen, by simpa using hslices⟩
      | some pr =>
        obtain ⟨cfi, v⟩ := pr
        obtain ⟨_, _, t, hget, hthird⟩ := findTriExt_spec hf
        have hrest : rest.length = faces.length := by
          simp at hlen; omega
        have hlen' : (v :: q :: p :: rest).length = (faces ++ [cfi]).length + 2 := by
          simp; omega
        refine ih (v :: q :: p :: rest) (faces ++ [cfi]) (cfi :: lu) hlen' ?_
        intro k hk
        simp only [List.length_append, List.length_cons, List.length_nil] at hk
        rcases Nat.lt_or_ge k faces.length with hkm | hkm
        · -- old slice, all positions stable under the new cons
          obtain ⟨fi, t', x0, x1, x2, e1, e2, e3, e4, e5, e6⟩ := hslices k hkm
          refine ⟨fi, t', x0, x1, x2, ?_, e2, ?_, ?_, ?_, e6⟩
          · rw [List.get?_append (by omega)]; exact e1
          · rw [List.reverse_cons, List.get?_append (by simp; omega)]; exact e3
          · rw [List.reverse_cons, List.get?_append (by simp; omega)]; exact e4
          · rw [List.reverse_cons, List.get?_append (by simp; omega)]; exact e5
        · -- the newly folded face, at position faces.length
          have hk' : k = faces.length := by omega
          have hx0 : (v :: q :: p :: rest).reverse.get? k = some p := by
            rw [List.reverse_cons, List.get?_append (by simp; omega)]
            rw [show (q :: p :: rest).reverse = rest.reverse ++ [p, q] by simp]
            rw [List.get?_append_right (by simp; omega)]
            rw [show k - rest.reverse.length = 0 by simp [hrest, hk']]
            rfl
          have hx1 : (v :: q :: p :: rest).reverse.get? (k + 1) = some q := by
            rw [List.reverse_cons, List.get?_append (by simp; omega)]
            rw [show (q :: p :: rest).reverse = rest.reverse ++ [p, q] by simp]
            rw [List.get?_append_right (by simp; omega)]
            rw [show k + 1 - rest.reverse.length = 1 by simp [hrest, hk']]
            rfl
          have hx2 : (v :: q :: p :: rest).reverse.get? (k + 2) = some v := by
            rw [List.reverse_cons]
            rw [show k + 2 = (q :: p :: rest).reverse.length by simp [hk']; omega]
            rw [List.get?_concat_length]
          have hfik : (faces ++ [cfi]).get? k = some cfi := by
            rw [hk', List.get?_concat_length]
          have hmem : ∀ y, (y = p ∨ y = q ∨ y = v) ↔
              (y = t.1 ∨ y = t.2.1 ∨ y = t.2.2) := by
            by_cases hpar : faces.length % 2 = 0
            · have : triDirectedEdgeThird t p q = some v := by
                simpa [hpar] using hthird
              exact triDirectedEdgeThird_mem this
            · have : triDirectedEdgeThird t q p = some v := by
                simpa [hpar] using hthird
              intro y
              have := triDirectedEdgeThird_mem this y
              tauto
          obtain ⟨hs1, hs2⟩ := subsets_of_mem_iff [p, q, v]
            [t.1, t.2.1, t.2.2] (by intro y; simpa using hmem y)
          exact ⟨cfi, t, p, q, v, hfik, hget, hx0, hx1, hx2, hs1, hs2⟩

/-- The extension loop preserves per-face decodability of the (forward)
quad strip; the strip's last two entries are always `exit_q, exit_p`. -/
theorem extendQuad_decode (quads : List (K × K × K × K)) (fuel : Nat) :
    ∀ rs faces lu zp zq rest0,
      rs = zp :: zq :: rest0 →
      rs.length = 2 * faces.length + 2 →
      (∀ k, k < faces.length → quadSliceOK quads rs.reverse faces k) →
      (extendQuad quads fuel rs faces lu zp zq).1.length
          = 2 * (extendQuad quads fuel rs faces lu zp zq).2.1.length + 2 ∧
      ∀ k, k < (extendQuad quads fuel rs faces lu zp zq).2.1.length →
        quadSliceOK quads (extendQuad quads fuel rs faces lu zp zq).1.reverse
          (extendQuad quads fuel rs faces lu zp zq).2.1 k := by
  induction fuel with
  | zero =>
    intro rs faces lu zp zq rest0 hshape hlen hslices
    exact ⟨by simpa [extendQuad] using hlen, by simpa [extendQuad] using hslices⟩
  | succ fuel ih =>
    intro rs faces lu zp zq rest0 hshape hlen hslices
    rw [extendQuad]
    cases hf : findQuadExt quads (edgeToFacesQuad quads zp zq) lu zp zq with
    | none => exact ⟨by simpa using hlen, by simpa using hslices⟩
    | some pr =>
      obtain ⟨cfi, cv⟩ := pr
      obtain ⟨_, _, qd, hget, hrot⟩ := findQuadExt_spec hf
      obtain ⟨hcv1, hcv2, r, hcvr⟩ := findQuadRotIdx_spec hrot
      have hrest : rest0.length = 2 * faces.length := by
        subst hshape; simp at hlen; omega
      have hrsl : rs.length = 2 * faces.length + 2 := hlen
      have hlen' : (cv.2.2.1 :: cv.2.2.2 :: rs).length
          = 2 * (faces ++ [cfi]).length + 2 := by
        simp [hrsl]; omega
      refine ih (cv.2.2.1 :: cv.2.2.2 :: rs) (faces ++ [cfi]) (cfi :: lu)
        cv.2.2.1 cv.2.2.2 rs rfl hlen' ?_
      intro k hk
      simp only [List.length_append, List.length_cons, List.length_nil] at hk
      have hrev : (cv.2.2.1 :: cv.2.2.2 :: rs).reverse
          = rs.reverse ++ [cv.2.2.2, cv.2.2.1] := by simp
      rcases Nat.lt_or_ge k faces.length with hkm | hkm
      · obtain ⟨fi, qd', x0, x1, x2, x3, e1, e2, e3, e4, e5, e6, e7, e8⟩ :=
          hslices k hkm
        refine ⟨fi, qd', x0, x1, x2, x3, ?_, e2, ?_, ?_, ?_, ?_, e7, e8⟩
        · rw [List.get?_append (by omega)]; exact e1
        · rw [hrev, List.get?_append (by simp [hrsl]; omega)]; exact e3
        · rw [hrev, List.get?_append (by simp [hrsl]; omega)]; exact e4
        · rw [hrev, List.get?_append (by simp [hrsl]; omega)]; exact e5
        · rw [hrev, List.get?_append (by simp [hrsl]; omega)]; exact e6
      · have hk' : k = faces.length := by omega
        have hsplit : rs.reverse = rest0.reverse ++ [zq, zp] := by
          subst hshape; simp
        have hx0 : (cv.2.2.1 :: cv.2.2.2 :: rs).reverse.get? (2 * k)
            = some zq := by
          rw [hrev, List.get?_append (by simp [hrsl]; omega), hsplit,
            List.get?_append_right (by simp [hrest, hk'] <;> omega)]
          rw [show 2 * k - rest0.reverse.length = 0 by simp [hrest, hk']]
          rfl
        have hx1 : (cv.2.2.1 :: cv.2.2.2 :: rs).reverse.get? (2 * k + 1)
            = some zp := by
          rw [hrev, List.get?_append (by simp [hrsl]; omega), hsplit,
            List.get?_append_right (by simp [hrest, hk'] <;> omega)]
          rw [show 2 * k + 1 - rest0.reverse.length = 1 by simp [hrest, hk']]
          rfl
        have hx3 : (cv.2.2.1 :: cv.2.2.2 :: rs).reverse.get? (2 * k + 2)
            = some cv.2.2.2 := by
          rw [hrev, List.get?_append_right (by simp [hrsl, hk'] <;> omega)]
          rw [show 2 * k + 2 - rs.reverse.length = 0 by simp [hrsl, hk']]
          rfl
        have hx2 : (cv.2.2.1 :: cv.2.2.2 :: rs).reverse.get? (2 * k + 3)
            = some cv.2.2.1 := by
          rw [hrev, List.get?_append_right (by simp [hrsl, hk'] <;> omega)]
          rw [show 2 * k + 3 - rs.reverse.length = 1 by simp [hrsl, hk']]
          rfl
        have hfik : (faces ++ [cfi]).get? k = some cfi := by
          rw [hk', List.get?_concat_length]
        have hmemq : ∀ y, y ∈ [zq, zp, cv.2.2.1, cv.2.2.2] ↔
            y ∈ [qd.1, qd.2.1, qd.2.2.1, qd.2.2.2] := by
          intro y
          rw [show [zq, zp, cv.2.2.1, cv.2.2.2]
              = [cv.1, cv.2.1, cv.2.2.1, cv.2.2.2] by rw [hcv1, hcv2]]
          rw [hcvr]
          exact rotQuad_mem qd r y
        obtain ⟨hs1, hs2⟩ := subsets_of_mem_iff [zq, zp, cv.2.2.1, cv.2.2.2]
          [qd.1, qd.2.1, qd.2.2.1, qd.2.2.2] hmemq
        exact ⟨cfi, qd, zq, zp, cv.2.2.1, cv.2.2.2, hfik, hget, hx0, hx1,
          hx2, hx3, hs1, hs2⟩

/-- The shared outer loop partitions the pending face indices: the
concatenation of all harvested face lists and the singles list covers
every in-range unused face exactly once, and every kept strip is a
harvest of an unused start face. -/
theorem greedyLoop_partition (harvest : Nat → List Nat → List K × List Nat)
    (n : Nat)
    (hspec : ∀ s used, s < n → s ∉ used → ChainOK n s used (harvest s used)) :
    ∀ startList used,
      (∀ i, i < n → i ∉ used → i ∈ startList) →
      (∀ i ∈ startList, i < n) →
      ((((greedyLoop harvest startList used).1.map Prod.snd).flatten
          ++ (greedyLoop harvest startList used).2).Nodup
       ∧ (∀ i, i ∈ ((greedyLoop harvest startList used).1.map Prod.snd).flatten
            ++ (greedyLoop harvest startList used).2 ↔ i < n ∧ i ∉ used)
       ∧ (∀ pr ∈ (greedyLoop harvest startList used).1,
            2 ≤ pr.2.length ∧ ∃ s u, s < n ∧ s ∉ u ∧ pr = harvest s u)) := by
  intro startList
  induction startList with
  | nil =>
    intro used hpend _
    refine ⟨by simp [greedyLoop], ?_, by simp [greedyLoop]⟩
    intro i
    simp only [greedyLoop, List.map_nil, List.flatten_nil, List.nil_append,
      List.not_mem_nil, false_iff]
    intro ⟨hin, hiu⟩
    exact (List.not_mem_nil i) (hpend i hin hiu)
  | cons s rest ih =>
    intro used hpend hrange
    have hsn : s < n := hrange s (List.mem_cons_self _ _)
    by_cases hsu : s ∈ used
    · -- already used: skipped
      have hpend' : ∀ i, i < n → i ∉ used → i ∈ rest := by
        intro i hin hiu
        rcases List.mem_cons.mp (hpend i hin hiu) with rfl | h
        · exact absurd hsu hiu
        · exact h
      have hrange' : ∀ i ∈ rest, i < n :=
        fun i hi => hrange i (List.mem_cons_of_mem _ hi)
      have := ih used hpend' hrange'
      simpa [greedyLoop, hsu] using this
    · -- fresh start face
      have hok := hspec s used hsn hsu
      obtain ⟨hnod, hsmem, hbnd⟩ := hok
      have hpend' : ∀ i, i < n → i ∉ (harvest s used).2 ++ used → i ∈ rest := by
        intro i hin hiu
        rw [List.mem_append] at hiu
        push_neg at hiu
        rcases List.mem_cons.mp (hpend i hin hiu.2) with rfl | h
        · exact absurd hsmem hiu.1
        · exact h
      have hrange' : ∀ i ∈ rest, i < n :=
        fun i hi => hrange i (List.mem_cons_of_mem _ hi)
      obtain ⟨ihnod, ihmem, ihstrips⟩ :=
        ih ((harvest s used).2 ++ used) hpend' hrange'
      by_cases hkeep : 2 ≤ (harvest s used).2.length
      · -- chain kept as a strip
        have hres : greedyLoop harvest (s :: rest) used
            = ((harvest s used) ::
                (greedyLoop harvest rest ((harvest s used).2 ++ used)).1,
               (greedyLoop harvest rest ((harvest s used).2 ++ used)).2) := by
          simp [greedyLoop, hsu, hkeep]
        rw [hres]
        refine ⟨?_, ?_, ?_⟩
        · simp only [List.map_cons, List.flatten_cons, List.append_assoc]
          refine List.Nodup.append hnod ihnod ?_
          intro a ha hacov
          have := (ihmem a).mp hacov
          exact this.2 (List.mem_append_left _ ha)
        · intro i
          simp only [List.map_cons, List.flatten_cons, List.append_assoc,
            List.mem_append]
          constructor
          · rintro (hi | hi)
            · exact ⟨(hbnd i hi).1, (hbnd i hi).2⟩
            · have := (ihmem i).mp (List.mem_append.mpr hi)
              refine ⟨this.1, fun hiu => this.2 (List.mem_append_right _ hiu)⟩
          · rintro ⟨hin, hiu⟩
            by_cases hih : i ∈ (harvest s used).2
            · exact Or.inl hih
            · refine Or.inr (List.mem_append.mp ((ihmem i).mpr ⟨hin, ?_⟩))
              rw [List.mem_append]
              push_neg
              exact ⟨hih, hiu⟩
        · intro pr hpr
          rcases List.mem_cons.mp hpr with rfl | h
          · exact ⟨hkeep, s, used, hsn, hsu, rfl⟩
          · exact ihstrips pr h
      · -- singleton chain: recorded as a single
        have hone : (harvest s used).2 = [s] := by
          have h1 : 1 ≤ (harvest s used).2.length :=
            List.length_pos.mpr (List.ne_nil_of_mem hsmem)
          have h2 : (harvest s used).2.length = 1 := by omega
          obtain ⟨a, ha⟩ := List.length_eq_one.mp h2
          rw [ha] at hsmem ⊢
          simp at hsmem
          rw [hsmem]
        have hres : greedyLoop harvest (s :: rest) used
            = ((greedyLoop harvest rest ((harvest s used).2 ++ used)).1,
               s :: (greedyLoop harvest rest ((harvest s used).2 ++ used)).2) := by
          simp [greedyLoop, hsu, hkeep]
        rw [hres]
        have hperm :
            (((greedyLoop harvest rest ((harvest s used).2 ++ used)).1.map
                Prod.snd).flatten
              ++ s :: (greedyLoop harvest rest ((harvest s used).2 ++ used)).2).Perm
            (s :: (((greedyLoop harvest rest ((harvest s used).2 ++ used)).1.map
                Prod.snd).flatten
              ++ (greedyLoop harvest rest ((harvest s used).2 ++ used)).2)) :=
          List.perm_middle
        refine ⟨?_, ?_, ihstrips⟩
        · refine hperm.nodup_iff.mpr (List.Nodup.cons ?_ ihnod)
          intro hmem
          have := (ihmem s).mp hmem
          exact this.2 (List.mem_append_left _ (hone ▸ List.mem_cons_self _ _))
        · intro i
          rw [hperm.mem_iff, List.mem_cons]
          constructor
          · rintro (rfl | hi)
            · exact ⟨hsn, hsu⟩
            · have := (ihmem i).mp hi
              refine ⟨this.1, fun hiu => this.2 (List.mem_append_right _ hiu)⟩
          · rintro ⟨hin, hiu⟩
            by_cases his : i = s
            · exact Or.inl his
            · refine Or.inr ((ihmem i).mpr ⟨hin, ?_⟩)
              rw [List.mem_append, hone]
              push_neg
              simp only [List.mem_singleton]
              exact ⟨his, hiu⟩

theorem tryRotTri_chainOK (tris : List (K × K × K)) (s : Nat)
    (used : List Nat) (t : K × K × K) (rot : Nat) (hsn : s < tris.length)
    (hsu : s ∉ used) :
    ChainOK tris.length s used (tryRotTri tris s used t rot) := by
  unfold tryRotTri ChainOK
  dsimp only
  obtain ⟨nv, nf, g1, g2, g3, g4, g5, g6⟩ := extendTri_inv tris tris.length
    [(rotTri t rot).2.2, (rotTri t rot).2.1, (rotTri t rot).1] [s] (s :: used)
  rw [g2]
  refine ⟨?_, by simp, ?_⟩
  · refine List.Nodup.append (by simp) g4 ?_
    intro a ha hanf
    have := (g5 a hanf).1
    simp at ha
    subst ha
    simp at this
  · intro f hf
    rcases List.mem_append.mp hf with hf | hf
    · simp at hf
      subst hf
      exact ⟨hsn, hsu⟩
    · obtain ⟨hnotin, hlt⟩ := g5 f hf
      exact ⟨hlt, fun hfu => hnotin (List.mem_cons_of_mem _ hfu)⟩

theorem tryRotTri_shape (tris : List (K × K × K)) (s : Nat) (used : List Nat)
    (t : K × K × K) (rot : Nat) (hget : tris.get? s = some t) :
    (tryRotTri tris s used t rot).1.length
        = (tryRotTri tris s used t rot).2.length + 2
    ∧ ∀ k, k < (tryRotTri tris s used t rot).2.length →
        triSliceOK tris (tryRotTri tris s used t rot).1
          (tryRotTri tris s used t rot).2 k := by
  have hinit : ∀ k, k < ([s] : List Nat).length →
      triSliceOK tris
        [(rotTri t rot).2.2, (rotTri t rot).2.1, (rotTri t rot).1].reverse
        [s] k := by
    intro k hk
    simp only [List.length_singleton] at hk
    have hk0 : k = 0 := by omega
    subst hk0
    obtain ⟨hs1, hs2⟩ := subsets_of_mem_iff
      [(rotTri t rot).1, (rotTri t rot).2.1, (rotTri t rot).2.2]
      [t.1, t.2.1, t.2.2] (rotTri_mem t rot)
    exact ⟨s, t, (rotTri t rot).1, (rotTri t rot).2.1, (rotTri t rot).2.2,
      rfl, hget, rfl, rfl, rfl, hs1, hs2⟩
  have hd := extendTri_decode tris tris.length
    [(rotTri t rot).2.2, (rotTri t rot).2.1, (rotTri t rot).1] [s] (s :: used)
    (by simp) hinit
  unfold tryRotTri
  dsimp only
  constructor
  · rw [List.length_reverse]
    exact hd.1
  · exact hd.2

theorem bestRotTri_cases (tris : List (K × K × K)) (s : Nat)
    (used : List Nat) (t : K × K × K) :
    ∃ rot, bestRotTri tris s used t = tryRotTri tris s used t rot := by
  unfold bestRotTri
  dsimp only
  by_cases h1 : (tryRotTri tris s used t 1).2.length
      > (tryRotTri tris s used t 0).2.length
  · simp only [if_pos h1]
    by_cases h2 : (tryRotTri tris s used t 2).2.length
        > (tryRotTri tris s used t 1).2.length
    · simp only [if_pos h2]; exact ⟨2, rfl⟩
    · simp only [if_neg h2]; exact ⟨1, rfl⟩
  · simp only [if_neg h1]
    by_cases h2 : (tryRotTri tris s used t 2).2.length
        > (tryRotTri tris s used t 0).2.length
    · simp only [if_pos h2]; exact ⟨2, rfl⟩
    · simp only [if_neg h2]; exact ⟨0, rfl⟩

theorem bestRotTriAt_chainOK (tris : List (K × K × K)) (s : Nat)
    (used : List Nat) (hsn : s < tris.length) (hsu : s ∉ used) :
    ChainOK tris.length s used (bestRotTriAt tris s used) := by
  cases hg : tris.get? s with
  | none =>
    exfalso
    rw [List.get?_eq_none] at hg
    omega
  | some t =>
    have hbe : bestRotTriAt tris s used = bestRotTri tris s used t := by
      unfold bestRotTriAt; rw [hg]
    obtain ⟨rot, hrot⟩ := bestRotTri_cases tris s used t
    rw [hbe, hrot]
    exact tryRotTri_chainOK tris s used t rot hsn hsu

theorem bestRotTriAt_shape (tris : List (K × K × K)) (s : Nat)
    (used : List Nat) (hsn : s < tris.length) :
    (bestRotTriAt tris s used).1.length
        = (bestRotTriAt tris s used).2.length + 2
    ∧ ∀ k, k < (bestRotTriAt tris s used).2.length →
        triSliceOK tris (bestRotTriAt tris s used).1
          (bestRotTriAt tris s used).2 k := by
  cases hg : tris.get? s with
  | none =>
    exfalso
    rw [List.get?_eq_none] at hg
    omega
  | some t =>
    have hbe : bestRotTriAt tris s used = bestRotTri tris s used t := by
      unfold bestRotTriAt; rw [hg]
    obtain ⟨rot, hrot⟩ := bestRotTri_cases tris s used t
    rw [hbe, hrot]
    exact tryRotTri_shape tris s used t rot hg

theorem tryRotQuad_chainOK (quads : List (K × K × K × K)) (s : Nat)
    (used : List Nat) (qd : K × K × K × K) (rot : Nat)
    (hsn : s < quads.length) (hsu : s ∉ used) :
    ChainOK quads.length s used (tryRotQuad quads s used qd rot) := by
  unfold tryRotQuad ChainOK
  dsimp only
  obtain ⟨nv, nf, g1, g2, g3, g4, g5, g6⟩ := extendQuad_inv quads quads.length
    [(rotQuad qd rot).2.2.1, (rotQuad qd rot).2.2.2, (rotQuad qd rot).2.1,
     (rotQuad qd rot).1] [s] (s :: used) (rotQuad qd rot).2.2.1
    (rotQuad qd rot).2.2.2
  rw [g2]
  refine ⟨?_, by simp, ?_⟩
  · refine List.Nodup.append (by simp) g4 ?_
    intro a ha hanf
    have := (g5 a hanf).1
    simp at ha
    subst ha
    simp at this
  · intro f hf
    rcases List.mem_append.mp hf with hf | hf
    · simp at hf
      subst hf
      exact ⟨hsn, hsu⟩
    · obtain ⟨hnotin, hlt⟩ := g5 f hf
      exact ⟨hlt, fun hfu => hnotin (List.mem_cons_of_mem _ hfu)⟩

theorem tryRotQuad_shape (quads : List (K × K × K × K)) (s : Nat)
    (used : List Nat) (qd : K × K × K × K) (rot : Nat)
    (hget : quads.get? s = some qd) :
    (tryRotQuad quads s used qd rot).1.length
        = 2 * (tryRotQuad quads s used qd rot).2.length + 2
    ∧ ∀ k, k < (tryRotQuad quads s used qd rot).2.length →
        quadSliceOK quads (tryRotQuad quads s used qd rot).1
          (tryRotQuad quads s used qd rot).2 k := by
  have hinit : ∀ k, k < ([s] : List Nat).length →
      quadSliceOK quads
        [(rotQuad qd rot).2.2.1, (rotQuad qd rot).2.2.2, (rotQuad qd rot).2.1,
         (rotQuad qd rot).1].reverse [s] k := by
    intro k hk
    simp only [List.length_singleton] at hk
    have hk0 : k = 0 := by omega
    subst hk0
    obtain ⟨hs1, hs2⟩ := subsets_of_mem_iff
      [(rotQuad qd rot).1, (rotQuad qd rot).2.1, (rotQuad qd rot).2.2.1,
       (rotQuad qd rot).2.2.2]
      [qd.1, qd.2.1, qd.2.2.1, qd.2.2.2] (rotQuad_mem qd rot)
    exact ⟨s, qd, (rotQuad qd rot).1, (rotQuad qd rot).2.1,
      (rotQuad qd rot).2.2.1, (rotQuad qd rot).2.2.2,
      rfl, hget, rfl, rfl, rfl, rfl, hs1, hs2⟩
  have hd := extendQuad_decode quads quads.length
    [(rotQuad qd rot).2.2.1, (rotQuad qd rot).2.2.2, (rotQuad qd rot).2.1,
     (rotQuad qd rot).1] [s] (s :: used) (rotQuad qd rot).2.2.1
    (rotQuad qd rot).2.2.2 [(rotQuad qd rot).2.1, (rotQuad qd rot).1]
    rfl (by simp) hinit
  unfold tryRotQuad
  dsimp only
  constructor
  · rw [List.length_reverse]
    exact hd.1
  · exact hd.2

theorem bestRotQuad_cases (quads : List (K × K × K × K)) (s : Nat)
    (used : List Nat) (qd : K × K × K × K) :
    ∃ rot, bestRotQuad quads s used qd = tryRotQuad quads s used qd rot := by
  unfold bestRotQuad
  dsimp only
  by_cases h1 : (tryRotQuad quads s used qd 1).2.length
      > (tryRotQuad quads s used qd 0).2.length
  · simp only [if_pos h1]
    by_cases h2 : (tryRotQuad quads s used qd 2).2.length
        > (tryRotQuad quads s used qd 1).2.length
    · simp only [if_pos h2]
      by_cases h3 : (tryRotQuad quads s used qd 3).2.length
          > (tryRotQuad quads s used qd 2).2.length
      · simp only [if_pos h3]; exact ⟨3, rfl⟩
      · simp only [if_neg h3]; exact ⟨2, rfl⟩
    · simp only [if_neg h2]
      by_cases h3 : (tryRotQuad quads s used qd 3).2.length
          > (tryRotQuad quads s used qd 1).2.length
      · simp only [if_pos h3]; exact ⟨3, rfl⟩
      · simp only [if_neg h3]; exact ⟨1, rfl⟩
  · simp only [if_neg h1]
    by_cases h2 : (tryRotQuad quads s used qd 2).2.length
        > (tryRotQuad quads s used qd 0).2.length
    · simp only [if_pos h2]
      by_cases h3 : (tryRotQuad quads s used qd 3).2.length
          > (tryRotQuad quads s used qd 2).2.length
      · simp only [if_pos h3]; exact ⟨3, rfl⟩
      · simp only [if_neg h3]; exact ⟨2, rfl⟩
    · simp only [if_neg h2]
      by_cases h3 : (tryRotQuad quads s used qd 3).2.length
          > (tryRotQuad quads s used qd 0).2.length
      · simp only [if_pos h3]; exact ⟨3, rfl⟩
      · simp only [if_neg h3]; exact ⟨0, rfl⟩

theorem bestRotQuadAt_chainOK (quads : List (K × K × K × K)) (s : Nat)
    (used : List Nat) (hsn : s < quads.length) (hsu : s ∉ used) :
    ChainOK quads.length s used (bestRotQuadAt quads s used) := by
  cases hg : quads.get? s with
  | none =>
    exfalso
    rw [List.get?_eq_none] at hg
    omega
  | some qd =>
    have hbe : bestRotQuadAt quads s used = bestRotQuad quads s used qd := by
      unfold bestRotQuadAt; rw [hg]
    obtain ⟨rot, hrot⟩ := bestRotQuad_cases quads s used qd
    rw [hbe, hrot]
    exact tryRotQuad_chainOK quads s used qd rot hsn hsu

theorem bestRotQuadAt_shape (quads : List (K × K × K × K)) (s : Nat)
    (used : List Nat) (hsn : s < quads.length) :
    (bestRotQuadAt quads s used).1.length
        = 2 * (bestRotQuadAt quads s used).2.length + 2
    ∧ ∀ k, k < (bestRotQuadAt quads s used).2.length →
        quadSliceOK quads (bestRotQuadAt quads s used).1
          (bestRotQuadAt quads s used).2 k := by
  cases hg : quads.get? s with
  | none =>
    exfalso
    rw [List.get?_eq_none] at hg
    omega
  | some qd =>
    have hbe : bestRotQuadAt quads s used = bestRotQuad quads s used qd := by
      unfold bestRotQuadAt; rw [hg]
    obtain ⟨rot, hrot⟩ := bestRotQuad_cases quads s used qd
    rw [hbe, hrot]
    exact tryRotQuad_shape quads s used qd rot hg

/-- Combined consequences of the greedy loop for the triangle stripifier. -/
theorem stripifyTrianglesFull_spec (tris : List (K × K × K)) :
    ((((stripifyTrianglesFull tris).1.map Prod.snd).flatten
        ++ (stripifyTrianglesFull tris).2).Nodup)
    ∧ (∀ i, i ∈ ((stripifyTrianglesFull tris).1.map Prod.snd).flatten
        ++ (stripifyTrianglesFull tris).2 ↔ i < tris.length)
    ∧ (∀ pr ∈ (stripifyTrianglesFull tris).1,
        2 ≤ pr.2.length ∧ pr.1.length = pr.2.length + 2
        ∧ ∀ k, k < pr.2.length → triSliceOK tris pr.1 pr.2 k) := by
  unfold stripifyTrianglesFull
  obtain ⟨h1, h2, h3⟩ := greedyLoop_partition (bestRotTriAt tris) tris.length
    (fun s used hsn hsu => bestRotTriAt_chainOK tris s used hsn hsu)
    (List.range tris.length) []
    (fun i hin _ => List.mem_range.mpr hin)
    (fun i hi => List.mem_range.mp hi)
  refine ⟨h1, ?_, ?_⟩
  · intro i
    rw [h2 i]
    simp
  · intro pr hpr
    obtain ⟨hlen2, s, u, hsn, _, hpr_eq⟩ := h3 pr hpr
    obtain ⟨hsh1, hsh2⟩ := bestRotTriAt_shape tris s u hsn
    rw [hpr_eq]
    exact ⟨hpr_eq ▸ hlen2, hsh1, hsh2⟩

/-- Combined consequences of the greedy loop for the quad stripifier. -/
theorem stripifyQuadsFull_spec (quads : List (K × K × K × K)) :
    ((((stripifyQuadsFull quads).1.map Prod.snd).flatten
        ++ (stripifyQuadsFull quads).2).Nodup)
    ∧ (∀ i, i ∈ ((stripifyQuadsFull quads).1.map Prod.snd).flatten
        ++ (stripifyQuadsFull quads).2 ↔ i < quads.length)
    ∧ (∀ pr ∈ (stripifyQuadsFull quads).1,
        2 ≤ pr.2.length ∧ pr.1.length = 2 * pr.2.length + 2
        ∧ ∀ k, k < pr.2.length → quadSliceOK quads pr.1 pr.2 k) := by
  unfold stripifyQuadsFull
  obtain ⟨h1, h2, h3⟩ := greedyLoop_partition (bestRotQuadAt quads)
    quads.length
    (fun s used hsn hsu => bestRotQuadAt_chainOK quads s used hsn hsu)
    (List.range quads.length) []
    (fun i hin _ => List.mem_range.mpr hin)
    (fun i hi => List.mem_range.mp hi)
  refine ⟨h1, ?_, ?_⟩
  · intro i
    rw [h2 i]
    simp
  · intro pr hpr
    obtain ⟨hlen2, s, u, hsn, _, hpr_eq⟩ := h3 pr hpr
    obtain ⟨hsh1, hsh2⟩ := bestRotQuadAt_shape quads s u hsn
    rw [hpr_eq]
    exact ⟨hpr_eq ▸ hlen2, hsh1, hsh2⟩

/-- The covered faces (all strip face lists plus singles) are a
permutation of all face indices. -/
theorem coveredPermRange (cov : List Nat) (n : Nat) (h1 : cov.Nodup)
    (h2 : ∀ i, i ∈ cov ↔ i < n) : cov.length = n := by
  have hperm : cov.Perm (List.range n) :=
    (List.perm_ext_iff_of_nodup h1 (List.nodup_range n)).mpr
      (by intro a; rw [h2 a]; simp)
  simpa using hperm.length_eq

/-- C1: for every list of resolved triangles, `stripify_triangles`
partitions the face indices — each strip covers a duplicate-free face
list (`stripifyTrianglesFull` keeps the source's per-strip `faces` list
that the return value drops), the concatenation of all strip face lists
and the singles list contains every face index exactly once (never both,
never omitted), and `sum(len(strip) - 2) + len(singles)` equals the
number of input triangles. -/
theorem stripify_triangles_partitions (tris : List (K × K × K)) :
    (stripify_triangles tris
        = ((stripifyTrianglesFull tris).1.map Prod.fst,
           (stripifyTrianglesFull tris).2))
    ∧ (((stripifyTrianglesFull tris).1.map Prod.snd).flatten
        ++ (stripifyTrianglesFull tris).2).Nodup
    ∧ (∀ i, i ∈ ((stripifyTrianglesFull tris).1.map Prod.snd).flatten
        ++ (stripifyTrianglesFull tris).2 ↔ i < tris.length)
    ∧ (∀ pr ∈ (stripifyTrianglesFull tris).1,
        pr.1.length = pr.2.length + 2 ∧ 2 ≤ pr.2.length)
    ∧ ((stripify_triangles tris).1.map (fun s => s.length - 2)).sum
        + (stripify_triangles tris).2.length = tris.length := by
  obtain ⟨h1, h2, h3⟩ := stripifyTrianglesFull_spec tris
  refine ⟨rfl, h1, h2, fun pr hpr => ⟨(h3 pr hpr).2.1, (h3 pr hpr).1⟩, ?_⟩
  have hcov := coveredPermRange _ tris.length h1 h2
  have hmap : ((stripify_triangles tris).1.map (fun s => s.length - 2))
      = (stripifyTrianglesFull tris).1.map (fun pr => pr.2.length) := by
    unfold stripify_triangles
    rw [List.map_map]
    refine List.map_eq_map_iff.mpr ?_
    intro pr hpr
    have := (h3 pr hpr).2.1
    simp [Function.comp, this]
  rw [hmap]
  have hsum : ((stripifyTrianglesFull tris).1.map
      (fun pr => pr.2.length)).sum
      = (((stripifyTrianglesFull tris).1.map Prod.snd).flatten).length := by
    rw [List.length_join, List.map_map]
    rfl
  rw [hsum]
  have : (stripify_triangles tris).2 = (stripifyTrianglesFull tris).2 := rfl
  rw [this]
  simpa [List.length_append] using hcov

/-- C2: for every list of resolved quads, each strip of `stripify_quads`
has even length `L ≥ 4` and encodes exactly `(L-2)/2` quads (its covered
face list has `(L-2)/2` entries), `sum((len(strip)-2)/2) + len(singles)`
equals the number of input quads, and every quad index lands in exactly
one strip's face list or the singles list. -/
theorem stripify_quads_partitions (quads : List (K × K × K × K)) :
    (stripify_quads quads
        = ((stripifyQuadsFull quads).1.map Prod.fst,
           (stripifyQuadsFull quads).2))
    ∧ (∀ s ∈ (stripify_quads quads).1, s.length % 2 = 0 ∧ 4 ≤ s.length)
    ∧ (∀ pr ∈ (stripifyQuadsFull quads).1,
        (pr.1.length - 2) / 2 = pr.2.length ∧ 2 ≤ pr.2.length)
    ∧ (((stripifyQuadsFull quads).1.map Prod.snd).flatten
        ++ (stripifyQuadsFull quads).2).Nodup
    ∧ (∀ i, i ∈ ((stripifyQuadsFull quads).1.map Prod.snd).flatten
        ++ (stripifyQuadsFull quads).2 ↔ i < quads.length)
    ∧ ((stripify_quads quads).1.map (fun s => (s.length - 2) / 2)).sum
        + (stripify_quads quads).2.length = quads.length := by
  obtain ⟨h1, h2, h3⟩ := stripifyQuadsFull_spec quads
  refine ⟨rfl, ?_, ?_, h1, h2, ?_⟩
  · intro s hs
    unfold stripify_quads at hs
    simp only [List.mem_map] at hs
    obtain ⟨pr, hpr, rfl⟩ := hs
    obtain ⟨hge, hlen, _⟩ := h3 pr hpr
    constructor
    · omega
    · omega
  · intro pr hpr
    obtain ⟨hge, hlen, _⟩ := h3 pr hpr
    exact ⟨by omega, hge⟩
  · have hcov := coveredPermRange _ quads.length h1 h2
    have hmap : ((stripify_quads quads).1.map (fun s => (s.length - 2) / 2))
        = (stripifyQuadsFull quads).1.map (fun pr => pr.2.length) := by
      unfold stripify_quads
      rw [List.map_map]
      refine List.map_eq_map_iff.mpr ?_
      intro pr hpr
      have := (h3 pr hpr).2.1
      simp only [Function.comp]
      omega
    rw [hmap]
    have hsum : ((stripifyQuadsFull quads).1.map
        (fun pr => pr.2.length)).sum
        = (((stripifyQuadsFull quads).1.map Prod.snd).flatten).length := by
      rw [List.length_join, List.map_map]
      rfl
    rw [hsum]
    have : (stripify_quads quads).2 = (stripifyQuadsFull quads).2 := rfl
    rw [this]
    simpa [List.length_append] using hcov

/-- C3: stripification is winding-preserving. Every strip kept by
`stripify_triangles` (resp. `stripify_quads`) decodes, face by face, to
the same unordered vertex-key set as the original face it folded:
triangle `k` of a strip is the overlapping triple `(s[k], s[k+1],
s[k+2])` and quad `k` is `(s[2k], s[2k+1], s[2k+3], s[2k+2])`, and each
equals (as a set) the vertices of the source face recorded at position
`k` of that strip's face list. -/
theorem stripify_winding_preserving (tris : List (K × K × K))
    (quads : List (K × K × K × K)) :
    ((stripify_triangles tris).1
        = (stripifyTrianglesFull tris).1.map Prod.fst)
    ∧ (∀ pr ∈ (stripifyTrianglesFull tris).1, ∀ k, k < pr.2.length →
        triSliceOK tris pr.1 pr.2 k)
    ∧ ((stripify_quads quads).1 = (stripifyQuadsFull quads).1.map Prod.fst)
    ∧ (∀ pr ∈ (stripifyQuadsFull quads).1, ∀ k, k < pr.2.length →
        quadSliceOK quads pr.1 pr.2 k) := by
  obtain ⟨_, _, h3⟩ := stripifyTrianglesFull_spec tris
  obtain ⟨_, _, g3⟩ := stripifyQuadsFull_spec quads
  exact ⟨rfl, fun pr hpr => (h3 pr hpr).2.2, rfl,
    fun pr hpr => (g3 pr hpr).2.2⟩

/-! ## DLMM container layout lemmas -/

theorem dlOffsets_aux (sizes : List Nat) : ∀ pre st,
    (sizes.foldl (fun (acc : List Nat × Nat) sz =>
        (acc.1 ++ [acc.2], acc.2 + sz)) (pre, st)).1
      = pre ++ (sizes.foldl (fun (acc : List Nat × Nat) sz =>
          (acc.1 ++ [acc.2], acc.2 + sz)) ([], st)).1 := by
  induction sizes with
  | nil => intro pre st; simp
  | cons a rest ih =>
    intro pre st
    simp only [List.foldl_cons, List.nil_append]
    rw [ih (pre ++ [st]) (st + a), ih [st] (st + a)]
    simp

theorem dlOffsets_cons (hs a : Nat) (sizes : List Nat) :
    dlOffsets hs (a :: sizes) = hs :: dlOffsets (hs + a) sizes := by
  unfold dlOffsets
  simp only [List.foldl_cons, List.nil_append]
  rw [dlOffsets_aux sizes [hs] (hs + a)]
  rfl

theorem dlOffsets_length (sizes : List Nat) : ∀ hs,
    (dlOffsets hs sizes).length = sizes.length := by
  induction sizes with
  | nil => intro hs; rfl
  | cons a rest ih =>
    intro hs
    rw [dlOffsets_cons]
    simp [ih]

theorem dlOffsets_get (sizes : List Nat) : ∀ hs i, i < sizes.length →
    (dlOffsets hs sizes).get? i = some (hs + (sizes.take i).sum) := by
  induction sizes with
  | nil => intro hs i h; simp at h
  | cons a rest ih =>
    intro hs i h
    rw [dlOffsets_cons]
    cases i with
    | zero => simp
    | succ i =>
      simp only [List.length_cons] at h
      have := ih (hs + a) i (by omega)
      simp only [List.get?_cons_succ, this, List.take_succ_cons,
        List.sum_cons]
      congr 1
      omega

theorem sum_take_get {l : List Nat} {i a : Nat} (h : l.get? i = some a) :
    (l.take (i + 1)).sum = (l.take i).sum + a := by
  induction l generalizing i with
  | nil => simp at h
  | cons x rest ih =>
    cases i with
    | zero =>
      simp at h
      simp [h]
    | succ i =>
      simp only [List.get?_cons_succ] at h
      simp only [List.take_succ_cons, List.sum_cons, ih h]
      omega

theorem sum_map_const {α : Type} (l : List α) (c : Nat) :
    (l.map (fun _ => c)).sum = c * l.length := by
  induction l with
  | nil => simp
  | cons x rest ih => simp [ih]; ring

theorem flatten_drop {α : Type} (i : Nat) : ∀ (L : List (List α)),
    L.flatten.drop ((L.map List.length).take i).sum = (L.drop i).flatten := by
  induction i with
  | zero => intro L; simp
  | succ i ih =>
    intro L
    cases L with
    | nil => simp
    | cons x rest =>
      simp only [List.map_cons, List.take_succ_cons, List.sum_cons,
        List.flatten_cons, List.drop_succ_cons]
      rw [List.drop_append]
      exact ih rest

theorem drop_append_len {α : Type} {l1 : List α} {n : Nat} (l2 : List α)
    (k : Nat) (h : l1.length = n) : (l1 ++ l2).drop (n + k) = l2.drop k := by
  subst h
  exact List.drop_append k

theorem submeshHeader_length (off sz : Nat) (sub : Submesh) :
    (submeshHeader off sz sub).length = DLMM_SUBMESH_HEADER_SIZE := by
  have h31 : (sub.name.take 31).length ≤ 31 := by
    simp [List.length_take]
  simp [submeshHeader, u32le, u16le, packName, DLMM_SUBMESH_HEADER_SIZE]
    <;> omega

/-- The byte prefix of a DLMM file before the payload region. -/
theorem save_dlmm_split (subs : List Submesh) :
    save_dlmm subs
      = ((u32le DLMM_MAGIC ++ u32le DLMM_VERSION ++ u32le subs.length)
        ++ ((subs.zip (dlOffsets (12 + DLMM_SUBMESH_HEADER_SIZE * subs.length)
              (subs.map (fun s => s.dl.length)))).flatMap
            (fun p => submeshHeader p.2 p.1.dl.length p.1)))
        ++ ((subs.map Submesh.dl).flatten) := by
  unfold save_dlmm
  simp only [List.map_map]
  rfl

theorem save_dlmm_header_length (subs : List Submesh) :
    ((u32le DLMM_MAGIC ++ u32le DLMM_VERSION ++ u32le subs.length)
      ++ ((subs.zip (dlOffsets (12 + DLMM_SUBMESH_HEADER_SIZE * subs.length)
            (subs.map (fun s => s.dl.length)))).flatMap
          (fun p => submeshHeader p.2 p.1.dl.length p.1))).length
    = 12 + DLMM_SUBMESH_HEADER_SIZE * subs.length := by
  rw [List.length_append]
  have h12 : (u32le DLMM_MAGIC ++ u32le DLMM_VERSION
      ++ u32le subs.length).length = 12 := by
    simp [u32le]
  rw [h12, List.length_flatMap]
  have hmap : ((subs.zip (dlOffsets (12 + DLMM_SUBMESH_HEADER_SIZE * subs.length)
        (subs.map (fun s => s.dl.length)))).map
      (List.length ∘ fun p => submeshHeader p.2 p.1.dl.length p.1))
      = (subs.zip (dlOffsets (12 + DLMM_SUBMESH_HEADER_SIZE * subs.length)
        (subs.map (fun s => s.dl.length)))).map
          (fun _ => DLMM_SUBMESH_HEADER_SIZE) := by
    refine List.map_eq_map_iff.mpr ?_
    intro p _
    simp [Function.comp, submeshHeader_length]
  rw [hmap, sum_map_const, List.length_zip, dlOffsets_length,
    List.length_map]
  simp [Nat.min_self]
    <;> ring

/-- C4: the DLMM file written by `save_dlmm` is a 12-byte header (magic,
version, submesh count as three u32), one 56-byte header per submesh, and
then the concatenated payloads in submesh order; the stored offsets are a
running sum starting right after the last header, adjacent offsets differ
by exactly the intervening payload's length (strictly increasing for
non-empty payloads, no gaps or overlaps), each offset slices out exactly
its payload, and header size plus the payload lengths equals the total
file size. -/
theorem save_dlmm_container_layout (subs : List Submesh) :
    ((save_dlmm subs).length
        = 12 + DLMM_SUBMESH_HEADER_SIZE * subs.length
          + ((subs.map (fun s => s.dl.length)).sum))
    ∧ (save_dlmm subs
        = ((u32le DLMM_MAGIC ++ u32le DLMM_VERSION ++ u32le subs.length)
          ++ ((subs.zip (dlOffsets (12 + DLMM_SUBMESH_HEADER_SIZE * subs.length)
                (subs.map (fun s => s.dl.length)))).flatMap
              (fun p => submeshHeader p.2 p.1.dl.length p.1)))
          ++ ((subs.map Submesh.dl).flatten))
    ∧ ((u32le DLMM_MAGIC ++ u32le DLMM_VERSION ++ u32le subs.length).length
        = 12)
    ∧ (∀ off sz sub, (submeshHeader off sz sub).length
        = DLMM_SUBMESH_HEADER_SIZE)
    ∧ (∀ i, i < subs.length →
        (dlOffsets (12 + DLMM_SUBMESH_HEADER_SIZE * subs.length)
            (subs.map (fun s => s.dl.length))).get? i
          = some (12 + DLMM_SUBMESH_HEADER_SIZE * subs.length
              + ((subs.map (fun s => s.dl.length)).take i).sum))
    ∧ (∀ i a b sz,
        (dlOffsets (12 + DLMM_SUBMESH_HEADER_SIZE * subs.length)
            (subs.map (fun s => s.dl.length))).get? i = some a →
        (dlOffsets (12 + DLMM_SUBMESH_HEADER_SIZE * subs.length)
            (subs.map (fun s => s.dl.length))).get? (i + 1) = some b →
        (subs.map (fun s => s.dl.length)).get? i = some sz →
        b = a + sz ∧ (0 < sz → a < b))
    ∧ (∀ i off pl,
        (dlOffsets (12 + DLMM_SUBMESH_HEADER_SIZE * subs.length)
            (subs.map (fun s => s.dl.length))).get? i = some off →
        (subs.map Submesh.dl).get? i = some pl →
        (save_dlmm subs).drop off = ((subs.map Submesh.dl).drop i).flatten
        ∧ ((save_dlmm subs).drop off).take pl.length = pl) := by
  have hml : ((subs.map Submesh.dl).map List.length)
      = subs.map (fun s => s.dl.length) := by
    rw [List.map_map]; rfl
  have hszlen : (subs.map (fun s => s.dl.length)).length = subs.length :=
    List.length_map _ _
  have hoffget : ∀ i, i < subs.length →
      (dlOffsets (12 + DLMM_SUBMESH_HEADER_SIZE * subs.length)
          (subs.map (fun s => s.dl.length))).get? i
        = some (12 + DLMM_SUBMESH_HEADER_SIZE * subs.length
            + ((subs.map (fun s => s.dl.length)).take i).sum) := by
    intro i hi
    exact dlOffsets_get _ _ i (by rw [hszlen]; exact hi)
  have hdrop : ∀ i off,
      (dlOffsets (12 + DLMM_SUBMESH_HEADER_SIZE * subs.length)
          (subs.map (fun s => s.dl.length))).get? i = some off →
      (save_dlmm subs).drop off = ((subs.map Submesh.dl).drop i).flatten := by
    intro i off hoff
    have hilt : i < subs.length := by
      have := List.get?_eq_some.mp hoff
      obtain ⟨hlt, _⟩ := this
      rw [dlOffsets_length, hszlen] at hlt
      exact hlt
    have hoffval : off = 12 + DLMM_SUBMESH_HEADER_SIZE * subs.length
        + ((subs.map (fun s => s.dl.length)).take i).sum := by
      have hthis := hoffget i hilt
      rw [hoff] at hthis
      injection hthis
    rw [hoffval, save_dlmm_split,
      drop_append_len _ _ (save_dlmm_header_length subs)]
    rw [show (subs.map (fun s => s.dl.length))
        = ((subs.map Submesh.dl).map List.length) from hml.symm]
    exact flatten_drop i (subs.map Submesh.dl)
  refine ⟨?_, save_dlmm_split subs, by simp [u32le], submeshHeader_length,
    hoffget, ?_, ?_⟩
  · -- total length
    rw [save_dlmm_split, List.length_append, save_dlmm_header_length,
      List.length_join, hml]
  · -- adjacency and strict increase
    intro i a b sz ha hb hsz
    have hilt : i < subs.length := by
      have := List.get?_eq_some.mp ha
      obtain ⟨hlt, _⟩ := this
      rw [dlOffsets_length, hszlen] at hlt
      exact hlt
    have hilt2 : i + 1 < subs.length := by
      have := List.get?_eq_some.mp hb
      obtain ⟨hlt, _⟩ := this
      rw [dlOffsets_length, hszlen] at hlt
      exact hlt
    have haval := hoffget i hilt
    have hbval := hoffget (i + 1) hilt2
    rw [ha] at haval
    rw [hb] at hbval
    have ha' : a = 12 + DLMM_SUBMESH_HEADER_SIZE * subs.length
        + ((subs.map (fun s => s.dl.length)).take i).sum := by
      injection haval
    have hb' : b = 12 + DLMM_SUBMESH_HEADER_SIZE * subs.length
        + ((subs.map (fun s => s.dl.length)).take (i + 1)).sum := by
      injection hbval
    have hstep := sum_take_get hsz
    constructor
    · omega
    · omega
  · -- tiling and per-payload extraction
    intro i off pl hoff hpl
    have h1 := hdrop i off hoff
    refine ⟨h1, ?_⟩
    rw [h1]
    have hilt : i < (subs.map Submesh.dl).length := by
      have := List.get?_eq_some.mp hpl
      exact this.1
    have hdropcons : (subs.map Submesh.dl).drop i
        = pl :: (subs.map Submesh.dl).drop (i + 1) := by
      rw [List.drop_eq_getElem_cons hilt]
      congr 1
      have := List.get?_eq_some.mp hpl
      obtain ⟨h, heq⟩ := this
      simpa [List.get?_eq_getElem?, List.getElem?_eq_getElem h] using hpl
    rw [hdropcons, List.flatten_cons, List.take_left]

/-! ## Vertex emission: lookup failure and UV convention -/

/-- Python indexing fails exactly outside `[-len, len)`. -/
theorem pyGet_none {α : Type} (l : List α) (i : Int)
    (h : i < -(l.length : Int) ∨ (l.length : Int) ≤ i) : pyGet l i = none := by
  unfold pyGet
  rcases h with h | h
  · have h1 : ¬ 0 ≤ i := by omega
    have h2 : ¬ 0 ≤ i + l.length := by omega
    simp [h1, h2]
  · have h1 : 0 ≤ i := by omega
    rw [if_pos h1]
    apply List.get?_eq_none.mpr
    omega

theorem emitVtxTail_none (vertices : List (List ℚ)) (sc : ℚ)
    (tr : ℚ × ℚ × ℚ) (vc : Bool) (vi : Int)
    (h : pyGet vertices vi = none) :
    emitVtxTail vertices sc tr vc vi = none := by
  simp [emitVtxTail, h]

/-- C5 (amended): `emit_vertex` fails whenever a referenced index is
outside Python's index range `[-len, len)` of its table. (The original
claim — failure for every index that is not a valid 0-based index,
including the `-1` arising from a raw 1-based index of 0 — is refuted by
`emit_vertex_wraps_on_negative_index`: Python's negative indexing makes
`-1` read the last table entry when the table is non-empty.) -/
theorem emit_vertex_fails_on_out_of_range (vertices : List (List ℚ))
    (texcoords : List (ℚ × ℚ)) (normals : List (ℚ × ℚ × ℚ))
    (ts : ℚ × ℚ) (sc : ℚ) (tr : ℚ × ℚ × ℚ) (vc : Bool) (vk : VKey)
    (h : (vk.1 < -(vertices.length : Int) ∨ (vertices.length : Int) ≤ vk.1)
       ∨ (∃ ti, vk.2.1 = some ti ∧
           (ti < -(texcoords.length : Int) ∨ (texcoords.length : Int) ≤ ti))
       ∨ (∃ ni, vk.2.2 = some ni ∧
           (ni < -(normals.length : Int) ∨ (normals.length : Int) ≤ ni))) :
    emit_vertex vertices texcoords normals ts sc tr vc vk = none := by
  obtain ⟨vi, oti, oni⟩ := vk
  rcases h with h | ⟨ti, hti, h⟩ | ⟨ni, hni, h⟩
  · -- position index out of range: the tail lookup raises
    have hnone := emitVtxTail_none vertices sc tr vc vi (pyGet_none _ _ h)
    cases htc : emitTexcoordCmds texcoords ts oti with
    | none => simp [emit_vertex, htc]
    | some tc =>
      cases hn : emitNormalCmds normals oni with
      | none => simp [emit_vertex, htc, hn]
      | some nc => simp [emit_vertex, htc, hn, hnone]
  · -- texcoord index out of range
    subst hti
    have hnone := pyGet_none texcoords ti h
    simp [emit_vertex, emitTexcoordCmds, hnone]
  · -- normal index out of range
    subst hni
    have hnone := pyGet_none normals ni h
    cases htc : emitTexcoordCmds texcoords ts oti with
    | none => simp [emit_vertex, htc]
    | some tc => simp [emit_vertex, htc, emitNormalCmds, hnone]

/-- C5 counterexample: the vertex key `(-1, none, none)` — exactly what a
raw 1-based index of 0 resolves to — is not a valid 0-based index into
the two-entry vertex table, yet `emit_vertex` does not fail: Python's
negative indexing reads the last entry. -/
theorem emit_vertex_wraps_on_negative_index :
    ¬ validIdx ([[(1 : ℚ), 2, 3], [4, 5, 6]] : List (List ℚ)).length (-1)
    ∧ (emit_vertex [[(1 : ℚ), 2, 3], [4, 5, 6]] [] [] (8, 8) 1 (0, 0, 0)
        false ((-1 : Int), none, none)).isSome = true
    ∧ emit_vertex [[(1 : ℚ), 2, 3], [4, 5, 6]] [] [] (8, 8) 1 (0, 0, 0)
        false ((-1 : Int), none, none)
      = some [DLCmd.vtx ((4 + 0) * 1) ((5 + 0) * 1) ((6 + 0) * 1)] :=
  ⟨by decide, rfl, rfl⟩

theorem emit_vertex_fails_witness :
    emit_vertex [[(1 : ℚ), 2, 3]] [] [] (8, 8) 1 (0, 0, 0) false
      ((5 : Int), none, none) = none :=
  emit_vertex_fails_on_out_of_range [[(1 : ℚ), 2, 3]] [] [] (8, 8) 1
    (0, 0, 0) false ((5 : Int), none, none) (Or.inl (Or.inr (by decide)))

/-- C7: when a texcoord index is present and resolves to `(u, v)`,
`emit_vertex` emits the texture coordinate `(u * width, (1 - v) *
height)` — `v` flipped before scaling by the batch's texture size — as
the first command of the vertex's command sequence. -/
theorem emit_vertex_texcoord_convention (vertices : List (List ℚ))
    (texcoords : List (ℚ × ℚ)) (normals : List (ℚ × ℚ × ℚ)) (ts : ℚ × ℚ)
    (sc : ℚ) (tr : ℚ × ℚ × ℚ) (vc : Bool) (vi ti : Int) (oni : Option Int)
    (u v : ℚ) (cmds : List DLCmd)
    (huv : pyGet texcoords ti = some (u, v))
    (hemit : emit_vertex vertices texcoords normals ts sc tr vc
        (vi, some ti, oni) = some cmds) :
    cmds.head? = some (DLCmd.texcoord (u * ts.1) ((1 - v) * ts.2))
    ∧ DLCmd.texcoord (u * ts.1) ((1 - v) * ts.2) ∈ cmds := by
  have htc : emitTexcoordCmds texcoords ts (some ti)
      = some [DLCmd.texcoord (u * ts.1) ((1 - v) * ts.2)] := by
    simp [emitTexcoordCmds, huv]
  cases hn : emitNormalCmds normals oni with
  | none => simp [emit_vertex, htc, hn] at hemit
  | some nc =>
    cases htl : emitVtxTail vertices sc tr vc vi with
    | none => simp [emit_vertex, htc, hn, htl] at hemit
    | some tl =>
      simp only [emit_vertex, htc, hn, htl, Option.bind_eq_bind,
        Option.some_bind, Option.pure_def, Option.some.injEq] at hemit
      subst hemit
      constructor
      · rfl
      · simp

theorem emit_vertex_texcoord_witness :
    DLCmd.texcoord 16 48
      ∈ (emit_vertex [[0, 0, 0]] [((1 : ℚ)/4, 1/4)] [] (64, 64) 1 (0, 0, 0)
          false ((0 : Int), some 0, none)).getD [] := by
  have h := emit_vertex_texcoord_convention [[0, 0, 0]] [((1 : ℚ)/4, 1/4)]
    [] (64, 64) 1 (0, 0, 0) false 0 0 none (1/4) (1/4)
    [DLCmd.texcoord ((1/4 : ℚ) * 64) ((1 - 1/4) * 64),
     DLCmd.vtx ((0 + 0) * 1) ((0 + 0) * 1) ((0 + 0) * 1)] rfl rfl
  have he : emit_vertex [[0, 0, 0]] [((1 : ℚ)/4, 1/4)] [] (64, 64) 1
      (0, 0, 0) false ((0 : Int), some 0, none)
      = some [DLCmd.texcoord ((1/4 : ℚ) * 64) ((1 - 1/4) * 64),
          DLCmd.vtx ((0 + 0) * 1) ((0 + 0) * 1) ((0 + 0) * 1)] := rfl
  rw [he]
  simp only [Option.getD_some]
  have e1 : (1/4 : ℚ) * 64 = 16 := by norm_num
  have e2 : ((1 : ℚ) - 1/4) * 64 = 48 := by norm_num
  have h2 := h.2
  rw [e1, e2] at h2
  rw [e1, e2]
  exact h2

/-! ## Face-corner token parsing -/

theorem toList_len_pos {s : String} (h : s ≠ "") : ¬ s.length = 0 ∧ 0 < s.toList.length := by
  refine ⟨fun hl => h (by cases s with
    | mk data =>
      simp [String.length] at hl
      simp [hl]), ?_⟩
  cases hs : s.toList with
  | nil =>
    exfalso
    apply h
    cases s with
    | mk data =>
      simp only [String.toList] at hs
      subst hs
      rfl
  | cons c cs => simp [hs]

/-- C8: `parse_face_vertex` splits the token on `/`, parses 1-based
integers per arity, treats a present-but-empty texcoord slot as absent,
parses the normal index only when vertex-color mode is off (ignoring the
third field entirely when it is on), rejects any negative parsed raw
index, and converts surviving indices to 0-based by subtracting one. -/
theorem parse_face_vertex_spec (s0 s1 s2 : String) (vc : Bool)
    (a b c : Int) :
    ((pyInt s0 = some a →
      parseFaceTokens [s0] vc
        = if a < 0 then none else some (a - 1, none, none))
    ∧ (pyInt s0 = some a → pyInt s1 = some b →
      parseFaceTokens [s0, s1] vc
        = if a < 0 then none
          else if b < 0 then none else some (a - 1, some (b - 1), none))
    ∧ (pyInt s0 = some a → pyInt s1 = some b → pyInt s2 = some c →
        s1 ≠ "" →
      parseFaceTokens [s0, s1, s2] false
        = if a < 0 then none
          else if b < 0 then none
          else if c < 0 then none
          else some (a - 1, some (b - 1), some (c - 1)))
    ∧ (pyInt s0 = some a → pyInt s2 = some c →
      parseFaceTokens [s0, "", s2] false
        = if a < 0 then none
          else if c < 0 then none else some (a - 1, none, some (c - 1)))
    ∧ (pyInt s0 = some a → pyInt s1 = some b → s1 ≠ "" →
      parseFaceTokens [s0, s1, s2] true
        = if a < 0 then none
          else if b < 0 then none else some (a - 1, some (b - 1), none))
    ∧ (pyInt s0 = some a →
      parseFaceTokens [s0, "", s2] true
        = if a < 0 then none else some (a - 1, none, none)))
    ∧ (∀ t vcm, parse_face_vertex t vcm
        = parseFaceTokens ((splitOnChar '/' t.toList).map
            (fun cs => String.mk cs)) vcm) := by
  refine ⟨⟨?_, ?_, ?_, ?_, ?_, ?_⟩, fun t vcm => rfl⟩
  · intro h0
    by_cases ha : a < 0 <;> simp [parseFaceTokens, h0, ha]
  · intro h0 h1
    by_cases ha : a < 0
    · simp [parseFaceTokens, h0, h1, ha]
    · by_cases hb : b < 0 <;> simp [parseFaceTokens, h0, h1, ha, hb]
  · intro h0 h1 h2 hne
    obtain ⟨hpos0, hpos⟩ := toList_len_pos hne
    by_cases ha : a < 0
    · simp [parseFaceTokens, h0, h1, h2, hpos, hpos0, ha]
    · by_cases hb : b < 0
      · simp [parseFaceTokens, h0, h1, h2, hpos, hpos0, ha, hb]
      · by_cases hc : c < 0 <;>
          simp [parseFaceTokens, h0, h1, h2, hpos, hpos0, ha, hb, hc]
  · intro h0 h2
    by_cases ha : a < 0
    · simp [parseFaceTokens, h0, h2, ha]
    · by_cases hc : c < 0 <;> simp [parseFaceTokens, h0, h2, ha, hc]
  · intro h0 h1 hne
    obtain ⟨hpos0, hpos⟩ := toList_len_pos hne
    by_cases ha : a < 0
    · simp [parseFaceTokens, h0, h1, hpos, hpos0, ha]
    · by_cases hb : b < 0 <;>
        simp [parseFaceTokens, h0, h1, hpos, hpos0, ha, hb]
  · intro h0
    by_cases ha : a < 0 <;> simp [parseFaceTokens, h0, ha]

/-- C8 witness: the spec's scenario — token `5/7/2` with vertex-color
mode on resolves to `(4, 6, absent)`, the normal index ignored. -/
theorem parse_face_vertex_witness :
    parse_face_vertex "5/7/2" true = some (4, some 6, none) := by
  have h := parse_face_vertex_spec "5" "7" "2" true 5 7 2
  rw [h.2 "5/7/2" true]
  rw [show ((splitOnChar '/' ("5/7/2").toList).map (fun cs => String.mk cs))
      = ["5", "7", "2"] from rfl]
  rw [h.1.2.2.2.2.1 rfl rfl (by decide)]
  norm_num

/-! ## Vertex-line arity handling in the OBJ parser -/

/-- C6 counterexample: a vertex line with 6 numeric fields parsed while
vertex-color mode is NOT requested does not raise a format error — the
parser accepts it and stores all six floats. (The claim's converse half,
3 fields with vertex-color mode on being an error, does hold; see the
amended theorem.) -/
theorem parse_obj_accepts_six_fields_without_vc :
    parse_obj ["v 1 2 3 4 5 6"] false
      = some ⟨[[1, 2, 3, 4, 5, 6]], [], [], [], "__default__", none⟩ := by
  rfl

/-- C6 (amended): a 3-field vertex line is accepted without vertex-color
mode and is a format error with it; a 6-field vertex line is accepted in
BOTH modes (the source has no check rejecting 6 fields when vertex-color
mode is off); any other field count is a format error. `parse_obj` folds
`parseObjLine` over the input lines. -/
theorem parse_obj_vertex_arity (st : ObjState) (line : String)
    (args : List String) (vals : List ℚ) :
    (pySplit (stripComment line) = "v" :: args →
      ((args.length = 3 → args.mapM pyFloat = some vals →
        parseObjLine false st line
            = some { st with vertices := st.vertices ++ [vals] }
        ∧ parseObjLine true st line = none)
      ∧ (args.length = 6 → args.mapM pyFloat = some vals →
        ∀ vc, parseObjLine vc st line
            = some { st with vertices := st.vertices ++ [vals] })
      ∧ (args ≠ [] → args.length ≠ 3 → args.length ≠ 6 →
        ∀ vc, parseObjLine vc st line = none)))
    ∧ (∀ vc lines, parse_obj lines vc
        = lines.foldlM (parseObjLine vc) initObjState) := by
  refine ⟨?_, fun vc lines => rfl⟩
  intro htok
  refine ⟨?_, ?_, ?_⟩
  · intro h3 hmap
    have hmap' : List.mapM.loop pyFloat args [] = some vals := hmap
    constructor
    · simp [parseObjLine, htok, h3, hmap']
    · simp [parseObjLine, htok, h3]
  · intro h6 hmap vc
    have hmap' : List.mapM.loop pyFloat args [] = some vals := hmap
    simp [parseObjLine, htok, h6, hmap']
  · intro hne h3 h6 vc
    have hlen2 : ¬ (("v" :: args : List String).length < 2) := by
      have := List.length_pos.mpr hne
      simp
      omega
    simp [parseObjLine, htok, h3, h6, hlen2]
    have hpos := List.length_pos.mpr hne
    omega

/-- C6 witness: concrete vertex lines exercising the amended claim. -/
theorem parse_obj_vertex_arity_witness :
    parseObjLine false initObjState "v 1 2 3"
        = some ⟨[[1, 2, 3]], [], [], [], "__default__", none⟩
    ∧ parseObjLine true initObjState "v 1 2 3" = none := by
  have h := (parse_obj_vertex_arity initObjState "v 1 2 3" ["1", "2", "3"]
      [1, 2, 3]).1 rfl
  have h3 := h.1 rfl rfl
  exact ⟨h3.1, h3.2⟩

/-! ## Parser invariants on the material-to-faces mapping -/

theorem addFace_nonempty (mf : List (String × List (List String)))
    (name : String) (face : List String)
    (h : ∀ p ∈ mf, p.2 ≠ []) : ∀ p ∈ addFace mf name face, p.2 ≠ [] := by
  induction mf with
  | nil =>
    intro p hp
    simp [addFace] at hp
    subst hp
    simp
  | cons q rest ih =>
    intro p hp
    obtain ⟨n, fl⟩ := q
    rw [addFace] at hp
    split at hp
    · rcases List.mem_cons.mp hp with rfl | hp'
      · simp
      · exact h p (List.mem_cons_of_mem _ hp')
    · rcases List.mem_cons.mp hp with rfl | hp'
      · exact h _ (List.mem_cons_self _ _)
      · exact ih (fun r hr => h r (List.mem_cons_of_mem _ hr)) p hp'

theorem addFace_keys (mf : List (String × List (List String)))
    (name : String) (face : List String) :
    (addFace mf name face).map Prod.fst
      = if name ∈ mf.map Prod.fst then mf.map Prod.fst
        else mf.map Prod.fst ++ [name] := by
  induction mf with
  | nil => simp [addFace]
  | cons q rest ih =>
    obtain ⟨n, fl⟩ := q
    rw [addFace]
    by_cases hn : n = name
    · subst hn
      simp
    · rw [if_neg hn]
      simp only [List.map_cons]
      rw [ih]
      by_cases hmem : name ∈ rest.map Prod.fst
      · rw [if_pos hmem, if_pos]
        simp [hmem]
      · rw [if_neg hmem, if_neg]
        · simp
        · simp only [List.mem_cons]
          push_neg
          exact ⟨fun he => hn he.symm, hmem⟩

theorem addFace_keys_nodup (mf : List (String × List (List String)))
    (name : String) (face : List String)
    (h : (mf.map Prod.fst).Nodup) :
    ((addFace mf name face).map Prod.fst).Nodup := by
  rw [addFace_keys]
  split
  · exact h
  · rename_i hnot
    refine List.Nodup.append h (by simp) ?_
    intro a ha hb
    simp at hb
    subst hb
    exact hnot ha

/-- One parser step either leaves the material-to-faces mapping unchanged
or appends one face under the current material. -/
theorem parseObjLine_mf {vc : Bool} {st : ObjState} {line : String}
    {st' : ObjState} (h : parseObjLine vc st line = some st') :
    st'.materialFaces = st.materialFaces
    ∨ st'.materialFaces = addFace st.materialFaces st.currentMaterial
        (pySplit (stripComment line)).tail := by
  unfold parseObjLine at h
  by_cases c0 : (pySplit (stripComment line)).length < 2
  · rw [if_pos c0] at h
    simp only [Option.pure_def, Option.some.injEq] at h
    subst h; left; rfl
  · rw [if_neg c0] at h
    by_cases c1 : (pySplit (stripComment line)).headD "" = "mtllib"
    · rw [if_pos c1] at h
      simp only [Option.pure_def, Option.some.injEq] at h
      subst h; left; rfl
    · rw [if_neg c1] at h
      by_cases c2 : (pySplit (stripComment line)).headD "" = "usemtl"
      · rw [if_pos c2] at h
        simp only [Option.pure_def, Option.some.injEq] at h
        subst h; left; rfl
      · rw [if_neg c2] at h
        by_cases c3 : (pySplit (stripComment line)).headD "" = "v"
        · rw [if_pos c3] at h
          by_cases c3a : (pySplit (stripComment line)).tail.length = 3
          · rw [if_pos c3a] at h
            cases vc with
            | true => simp at h
            | false =>
              simp only [Bool.false_eq_true, if_false, Option.pure_def,
                Option.bind_eq_bind, Option.bind_eq_some,
                Option.some.injEq] at h
              obtain ⟨v, -, rfl⟩ := h
              left; rfl
          · rw [if_neg c3a] at h
            by_cases c3b : (pySplit (stripComment line)).tail.length = 6
            · rw [if_pos c3b] at h
              simp only [Option.pure_def, Option.bind_eq_bind,
                Option.bind_eq_some, Option.some.injEq] at h
              obtain ⟨v, -, rfl⟩ := h
              left; rfl
            · rw [if_neg c3b] at h
              cases h
        · rw [if_neg c3] at h
          by_cases c4 : (pySplit (stripComment line)).headD "" = "vt"
          · rw [if_pos c4] at h
            simp only [Option.pure_def, Option.bind_eq_bind,
              Option.bind_eq_some, Option.some.injEq] at h
            obtain ⟨t0, -, t1, -, u, -, v, -, rfl⟩ := h
            left; rfl
          · rw [if_neg c4] at h
            by_cases c5 : (pySplit (stripComment line)).headD "" = "vn"
            · rw [if_pos c5] at h
              simp only [Option.pure_def, Option.bind_eq_bind,
                Option.bind_eq_some, Option.some.injEq] at h
              obtain ⟨t0, -, t1, -, t2, -, x, -, y, -, z, -, rfl⟩ := h
              left; rfl
            · rw [if_neg c5] at h
              by_cases c6 : (pySplit (stripComment line)).headD "" = "f"
              · rw [if_pos c6] at h
                simp only [Option.pure_def, Option.some.injEq] at h
                subst h; right; rfl
              · rw [if_neg c6] at h
                by_cases c7 : (pySplit (stripComment line)).headD "" = "l"
                · rw [if_pos c7] at h
                  cases h
                · rw [if_neg c7] at h
                  simp only [Option.pure_def, Option.some.injEq] at h
                  subst h; left; rfl

/-- Folding the parser preserves: all face lists non-empty, material
names duplicate-free. -/
theorem parse_obj_mf_invariant (lines : List String) (vc : Bool) :
    ∀ s0 st, lines.foldlM (parseObjLine vc) s0 = some st →
      ((∀ p ∈ s0.materialFaces, p.2 ≠ [])
        ∧ (s0.materialFaces.map Prod.fst).Nodup) →
      ((∀ p ∈ st.materialFaces, p.2 ≠ [])
        ∧ (st.materialFaces.map Prod.fst).Nodup) := by
  induction lines with
  | nil =>
    intro s0 st h hinv
    simp only [List.foldlM_nil, Option.pure_def, Option.some.injEq] at h
    subst h
    exact hinv
  | cons l rest ih =>
    intro s0 st h hinv
    simp only [List.foldlM_cons, Option.bind_eq_bind, Option.bind_eq_some]
      at h
    obtain ⟨s1, h1, h2⟩ := h
    refine ih s1 st h2 ?_
    rcases parseObjLine_mf h1 with heq | heq
    · rw [heq]; exact hinv
    · rw [heq]
      exact ⟨addFace_nonempty _ _ _ hinv.1, addFace_keys_nodup _ _ _ hinv.2⟩

/-! ## Alpha packing and the multi-material mode switch -/

/-- C9: every submesh built by the multi-material path packs its alpha
as `max(0, min(31, int(d * 31)))` of the material's dissolve `d`
(default 1 when the material is absent from the library); on `[0, 1]`
this is exactly truncation `int(d * 31)` clamped into `[0, 31]`, and a
dissolve of `0.5` packs to exactly 15. A `dlmm` output of `convert_obj`
is always such a submesh list. -/
theorem dlmm_alpha_packing (vertices : List (List ℚ))
    (texcoords : List (ℚ × ℚ)) (normals : List (ℚ × ℚ × ℚ)) (ts : ℚ × ℚ)
    (sc : ℚ) (tr : ℚ × ℚ × ℚ) (vc ns mm : Bool)
    (mats : List (String × MtlRecord))
    (probe : String → Option (Nat × Nat)) :
    (∀ mf subs, buildSubmeshes vertices texcoords normals ts sc tr vc ns
        mats probe mf = some subs →
      List.Forall₂ (fun (m : String × List (List String))
          (sub : SubmeshData) =>
        sub.name = m.1
        ∧ sub.alpha
            = dlmmAlpha (((lookupMat mats m.1).map MtlRecord.d).getD 1))
        mf subs)
    ∧ (∀ lines subs,
        convert_obj lines ts sc tr vc ns mm mats probe
            = some (ConvOutput.dlmm subs) →
        ∃ st, parse_obj lines vc = some st
          ∧ buildSubmeshes st.vertices st.texcoords st.normals ts sc tr vc
              ns mats probe st.materialFaces = some subs)
    ∧ (∀ d : ℚ, 0 ≤ d → d ≤ 1 →
        dlmmAlpha d = ratTrunc (d * 31)
        ∧ 0 ≤ dlmmAlpha d ∧ dlmmAlpha d ≤ 31)
    ∧ dlmmAlpha (1/2) = 15 := by
  refine ⟨?_, ?_, ?_, by norm_num [dlmmAlpha, ratTrunc]⟩
  · intro mf
    induction mf with
    | nil =>
      intro subs h
      simp only [buildSubmeshes, Option.some.injEq] at h
      subst h
      exact List.Forall₂.nil
    | cons m rest ih =>
      intro subs h
      obtain ⟨matName, faceList⟩ := m
      rw [buildSubmeshes] at h
      simp only [Option.pure_def, Option.bind_eq_bind, Option.bind_eq_some,
        Option.some.injEq] at h
      obtain ⟨⟨rts, rqs⟩, -, dl, -, subsRest, hrest, rfl⟩ := h
      exact List.Forall₂.cons ⟨rfl, rfl⟩ (ih subsRest hrest)
  · intro lines subs h
    unfold convert_obj at h
    cases hp : parse_obj lines vc with
    | none => rw [hp] at h; cases h
    | some st =>
      rw [hp] at h
      simp only [Option.pure_def, Option.bind_eq_bind, Option.some_bind]
        at h
      by_cases hm : (mm && decide (1 < st.materialFaces.length)) = true
      · rw [if_pos hm] at h
        simp only [Option.bind_eq_some, Option.some.injEq] at h
        obtain ⟨subs', hbs, heq⟩ := h
        refine ⟨st, rfl, ?_⟩
        have : subs' = subs := by
          injection heq with h'
        rw [← this]
        exact hbs
      · rw [if_neg hm] at h
        simp only [Option.bind_eq_some, Option.some.injEq] at h
        obtain ⟨⟨rts, rqs⟩, -, dl, -, heq⟩ := h
        cases heq
  · intro d h0 h1
    have h31 : (0 : ℚ) ≤ d * 31 := by positivity
    have hle : d * 31 ≤ 31 := by nlinarith
    have htr : ratTrunc (d * 31) = ⌊d * 31⌋ := by
      simp [ratTrunc, h31]
    have hfl0 : 0 ≤ ⌊d * 31⌋ := by
      exact_mod_cast Int.le_floor.mpr (by exact_mod_cast h31)
    have hfl31 : ⌊d * 31⌋ ≤ 31 := by
      have := Int.floor_le_floor hle
      simpa using this
    refine ⟨?_, ?_, ?_⟩
    · rw [dlmmAlpha, htr]
      rw [min_eq_right (by omega), max_eq_right (by omega)]
    · rw [dlmmAlpha]
      omega
    · rw [dlmmAlpha, htr]
      omega

/-- C9 witness. -/
theorem dlmm_alpha_packing_witness :
    dlmmAlpha (1/2) = 15
    ∧ List.Forall₂ (fun (m : String × List (List String))
        (sub : SubmeshData) =>
      sub.name = m.1
      ∧ sub.alpha = dlmmAlpha ((((lookupMat [] m.1)).map MtlRecord.d).getD 1))
      [] [] := by
  have h := dlmm_alpha_packing [] [] [] (8, 8) 1 (0, 0, 0) false false false
    [] (fun _ => none)
  exact ⟨h.2.2.2, h.1 [] [] rfl⟩

/-- C10: `convert_obj` takes the legacy single-material path (saving the
external writer's output) exactly when the multi-material flag is unset
or the parsed mesh attributes faces to at most one material name, and
produces a DLMM container exactly when the flag is set and at least two
distinct material names have faces; every name in `material_faces` has a
non-empty face list and the names are distinct. -/
theorem convert_obj_multi_material_mode (lines : List String) (ts : ℚ × ℚ)
    (sc : ℚ) (tr : ℚ × ℚ × ℚ) (vc ns mm : Bool)
    (mats : List (String × MtlRecord))
    (probe : String → Option (Nat × Nat)) (st : ObjState)
    (hparse : parse_obj lines vc = some st)
    (hsome : (convert_obj lines ts sc tr vc ns mm mats probe).isSome
        = true) :
    (isLegacy (convert_obj lines ts sc tr vc ns mm mats probe) = true
      ↔ ¬ (mm = true ∧ 1 < st.materialFaces.length))
    ∧ (isDlmm (convert_obj lines ts sc tr vc ns mm mats probe) = true
      ↔ (mm = true ∧ 1 < st.materialFaces.length))
    ∧ (∀ p ∈ st.materialFaces, p.2 ≠ [])
    ∧ (st.materialFaces.map Prod.fst).Nodup := by
  have hinv := parse_obj_mf_invariant lines vc initObjState st hparse
    ⟨by simp [initObjState], by simp [initObjState]⟩
  have hbody : convert_obj lines ts sc tr vc ns mm mats probe
      = (if (mm && decide (1 < st.materialFaces.length)) = true then
          (buildSubmeshes st.vertices st.texcoords st.normals ts sc tr vc
            ns mats probe st.materialFaces).bind
            (fun subs => some (ConvOutput.dlmm subs))
        else
          (resolveFaces vc ((st.materialFaces.map Prod.snd).flatten)).bind
            (fun rr => (generate_display_list rr.1 rr.2 st.vertices
                st.texcoords st.normals ts sc tr vc ns).bind
              (fun dl => some (ConvOutput.legacy dl)))) := by
    unfold convert_obj
    rw [hparse]
    simp only [Option.bind_eq_bind, Option.some_bind]
    rfl
  rw [hbody] at hsome ⊢
  by_cases hm : (mm && decide (1 < st.materialFaces.length)) = true
  · rw [if_pos hm] at hsome ⊢
    cases hbs : buildSubmeshes st.vertices st.texcoords st.normals ts sc
        tr vc ns mats probe st.materialFaces with
    | none => rw [hbs] at hsome; simp at hsome
    | some subs =>
      have hmm : mm = true ∧ 1 < st.materialFaces.length := by
        rw [Bool.and_eq_true, decide_eq_true_iff] at hm
        exact hm
      simp only [Option.some_bind, isLegacy, isDlmm]
      exact ⟨by simpa using hmm, by simpa using hmm, hinv.1, hinv.2⟩
  · rw [if_neg hm] at hsome ⊢
    cases hrf : resolveFaces vc ((st.materialFaces.map Prod.snd).flatten)
        with
    | none => rw [hrf] at hsome; simp at hsome
    | some rr =>
      rw [hrf] at hsome
      simp only [Option.some_bind] at hsome ⊢
      cases hgd : generate_display_list rr.1 rr.2 st.vertices st.texcoords
          st.normals ts sc tr vc ns with
      | none => rw [hgd] at hsome; simp at hsome
      | some dl =>
        have hmm : ¬ (mm = true ∧ 1 < st.materialFaces.length) := by
          rw [Bool.and_eq_true, decide_eq_true_iff] at hm
          exact hm
        simp only [Option.some_bind, isLegacy, isDlmm]
        exact ⟨by simpa using hmm, by simpa using hmm, hinv.1, hinv.2⟩

/-- C10 witness: with the multi-material flag set but only one material
carrying faces, the conversion still takes the legacy path. -/
theorem convert_obj_multi_material_mode_witness :
    isLegacy (convert_obj
      ["v 0 0 0", "v 0 0 0", "v 0 0 0", "usemtl A", "f 1 2 3"]
      (8, 8) 1 (0, 0, 0) false false true [] (fun _ => none)) = true := by
  have h := convert_obj_multi_material_mode
    ["v 0 0 0", "v 0 0 0", "v 0 0 0", "usemtl A", "f 1 2 3"]
    (8, 8) 1 (0, 0, 0) false false true [] (fun _ => none)
    ⟨[[0, 0, 0], [0, 0, 0], [0, 0, 0]], [], [],
      [("A", [["1", "2", "3"]])], "A", none⟩ rfl rfl
  exact h.1.mpr (by decide)

/-! ## Concrete instantiations of the universal claims -/

/-- C1 witness: two triangles sharing an edge fold into one strip; the
count identity holds. -/
theorem stripify_triangles_partitions_witness :
    ((stripify_triangles [((0 : Nat), 1, 2), (2, 1, 3)]).1.map
        (fun s => s.length - 2)).sum
      + (stripify_triangles [((0 : Nat), 1, 2), (2, 1, 3)]).2.length = 2 :=
  (stripify_triangles_partitions [((0 : Nat), 1, 2), (2, 1, 3)]).2.2.2.2

/-- C2 witness: the spec's scenario — two adjacent, consistently wound
quads; the count identity holds. -/
theorem stripify_quads_partitions_witness :
    ((stripify_quads [((0 : Nat), 1, 2, 3), (3, 2, 4, 5)]).1.map
        (fun s => (s.length - 2) / 2)).sum
      + (stripify_quads [((0 : Nat), 1, 2, 3), (3, 2, 4, 5)]).2.length = 2 :=
  (stripify_quads_partitions [((0 : Nat), 1, 2, 3), (3, 2, 4, 5)]).2.2.2.2.2

/-- C3 witness: the returned strips are the face-annotated strips with
the face lists dropped, at a concrete input. -/
theorem stripify_winding_preserving_witness :
    (stripify_triangles [((0 : Nat), 1, 2), (2, 1, 3)]).1
      = (stripifyTrianglesFull [((0 : Nat), 1, 2), (2, 1, 3)]).1.map
          Prod.fst :=
  (stripify_winding_preserving [((0 : Nat), 1, 2), (2, 1, 3)]
    ([] : List (Nat × Nat × Nat × Nat))).1

/-- C4 witness: a one-submesh container with a 3-byte payload is
12 + 56 + 3 bytes long. -/
theorem save_dlmm_container_layout_witness :
    (save_dlmm [⟨[65], [1, 2, 3], 7, 8, 9, 10, true⟩]).length
      = 12 + DLMM_SUBMESH_HEADER_SIZE * 1 + 3 :=
  (save_dlmm_container_layout [⟨[65], [1, 2, 3], 7, 8, 9, 10, true⟩]).1

end Obj2DL
